import Mathlib

/-!
Verification development for the rule-compilation and matching engine of the
graphtransliterator repository (`graphtransliterator/core.py`,
`graphtransliterator/initialize.py`, `graphtransliterator/ambiguity.py`,
`graphtransliterator/rules.py`).

The Python code is shallowly embedded: Python dicts become association lists
(preserving insertion order, as Python dicts do), Python lists become `List`,
`None`-able values become `Option`, and operations that can raise
(`KeyError`, `IndexError`, `AssertionError`, the transliteration exceptions)
return `Except PyErr`.  Loops whose termination is not structural are given
explicit fuel; a fuel-indexed function returns `none` exactly when the fuel
runs out, so `some r` means the Python loop terminates with outcome `r`.

Rule costs: the source computes `cost = log2(1 + 1/(1 + n))` where `n` is the
total token count of a rule.  Every use of a cost in the engine is an order
comparison (sorting, grouping by equality, `min`) or a comparison with the
bare default `1` read by `edge.get("cost", 1)`.  Since `log2` is strictly
monotone and `log2 x ≤ 1 ↔ x ≤ 2`, the embedding represents costs as exact
rationals via the order-isomorphic stand-in `1/(1+n)`, which like the source
value is strictly decreasing in `n`, equals `1` exactly at `n = 0`, and is
`< 1` for every `n ≥ 1` (every real rule has at least one token, so `n ≥ 1`).
Explicitly supplied costs are arbitrary rationals, as in the source.
-/

/-- Failure outcomes of the embedded Python code.  The first three model the
exceptions of `graphtransliterator/exceptions.py`; the `key…` constructors
model `KeyError`/`IndexError` on specific lookups; `assertBound` models a
failing `assert`. -/
inductive PyErr where
  | ambiguousRules
  | noMatchingRule
  | unrecognizableInputToken
  | keyRule
  | keyRuleKey
  | keyNode
  | keyEdge
  | keyCost
  | keyClasses
  | keyIndex
  | assertBound
deriving DecidableEq, Inhabited

instance {ε α : Type} [DecidableEq ε] [DecidableEq α] : DecidableEq (Except ε α) := fun a b =>
  match a, b with
  | .error x, .error y =>
      if h : x = y then isTrue (by rw [h]) else isFalse (fun hc => by cases hc; exact h rfl)
  | .error _, .ok _ => isFalse (fun hc => by cases hc)
  | .ok _, .error _ => isFalse (fun hc => by cases hc)
  | .ok x, .ok y =>
      if h : x = y then isTrue (by rw [h]) else isFalse (fun hc => by cases hc; exact h rfl)

/-- `rules.py`: `TransliterationRule` namedtuple. -/
structure TransliterationRule where
  production : String
  prev_classes : Option (List String)
  prev_tokens : Option (List String)
  tokens : List String
  next_tokens : Option (List String)
  next_classes : Option (List String)
  cost : Rat
deriving DecidableEq, Inhabited

/-- `rules.py`: `OnMatchRule` namedtuple. -/
structure OnMatchRule where
  prev_classes : List String
  next_classes : List String
  production : String
deriving DecidableEq, Inhabited

/-- `rules.py`: `WhitespaceRules` namedtuple. -/
structure WhitespaceRules where
  default : String
  token_class : String
  consolidate : Bool
deriving DecidableEq, Inhabited

/-- The constraint dict stored on the edge into a rule leaf by
`_graph_from` (initialize.py lines 189-199).  Keys are inserted in the fixed
order `prev_classes`, `prev_tokens`, `next_tokens`, `next_classes`, and only
for non-empty values, so iteration over `constraints.items()` in
`_match_constraints` visits the present fields in that order. -/
structure EdgeConstraints where
  prev_classes : Option (List String) := none
  prev_tokens : Option (List String) := none
  next_tokens : Option (List String) := none
  next_classes : Option (List String) := none
deriving DecidableEq, Inhabited

/-- Edge data dict: `token` (on token edges), `cost` (present only once set),
`constraints` (only on rule-leaf edges of constrained rules). -/
structure EdgeData where
  token : Option String := none
  cost : Option Rat := none
  constraints : Option EdgeConstraints := none
deriving DecidableEq, Inhabited

/-- Node dict of the graph built by `_graph_from`.  The `rule` field models
the `"rule"` key of the node dict; the current `_graph_from` never populates
it (initialize.py line 172: `{"type": "rule", "rule_key": rule_key,
"accepting": True}  # "rule": rule,`), while `_match_constraints` in core.py
still reads `curr_node["rule"]`. -/
structure GraphNode where
  type : String
  token : Option String := none
  rule_key : Option Nat := none
  rule : Option TransliterationRule := none
  accepting : Bool := false
  token_children : Option (List (String × Nat)) := none
  rule_children : Option (List Nat) := none
  ordered_children : Option (List (String × List Nat)) := none
deriving DecidableEq, Inhabited

/-- `graphs.py`: `DirectedGraph`, nodes in a list keyed by index, edges as a
head → tail → data mapping (modelled as an association list keyed by the
`(head, tail)` pair; `edge_list` is derived bookkeeping and not needed by the
engine, so it is omitted). -/
structure DirectedGraph where
  node : List GraphNode
  edge : List ((Nat × Nat) × EdgeData)
deriving DecidableEq, Inhabited

/-- Node lookup `graph.node[k]`; `none` models `IndexError`. -/
def getNode? (g : DirectedGraph) (k : Nat) : Option GraphNode :=
  g.node.get? k

/-- Total node lookup used inside graph construction, where the key is always
valid (keys come from `add_node`); out-of-range lookups return a dummy. -/
def getNodeD (g : DirectedGraph) (k : Nat) : GraphNode :=
  (g.node.get? k).getD default

/-- Edge lookup `graph.edge[h][t]`; `none` models `KeyError`. -/
def getEdge? (g : DirectedGraph) (h t : Nat) : Option EdgeData :=
  g.edge.lookup (h, t)

/-- Replace the node at index `k`. -/
def setNode (g : DirectedGraph) (k : Nat) (n : GraphNode) : DirectedGraph :=
  { g with node := g.node.set k n }

/-- `graphs.py` `add_node`: append a node, returning its key. -/
def addNode (g : DirectedGraph) (n : GraphNode) : DirectedGraph × Nat :=
  ({ g with node := g.node ++ [n] }, g.node.length)

/-- `graphs.py` `add_edge`: record edge data under `(head, tail)`. -/
def addEdge (g : DirectedGraph) (h t : Nat) (d : EdgeData) : DirectedGraph :=
  { g with edge := g.edge ++ [((h, t), d)] }

/-- In-place update of the data of edge `(h, t)` (Python mutates the edge
dict retrieved from `graph.edge[h][t]`). -/
def updateEdge (g : DirectedGraph) (h t : Nat) (f : EdgeData → EdgeData) : DirectedGraph :=
  { g with edge := g.edge.map (fun e => if e.1 = (h, t) then (e.1, f e.2) else e) }

/-- Python list access `l[i]` with an `Int` index: negative indices wrap
around once, as in Python; `none` models `IndexError`. -/
def pyGet (l : List String) (i : Int) : Option String :=
  let j : Int := if i < 0 then i + l.length else i
  if 0 ≤ j then l.get? j.toNat else none

/-- Python set intersection on token sets represented as lists (only
emptiness and subset tests are ever consumed). -/
def listInter (xs ys : List String) : List String :=
  xs.filter (fun x => ys.contains x)

/-- Python `set.difference(...) == empty`, i.e. subset. -/
def listSubsetB (xs ys : List String) : Bool :=
  xs.all (fun x => ys.contains x)


/-- Stable insertion of `x` into a `le`-sorted list: `x` goes after every
element `y` with `le y x`, so equal elements keep their original relative
order, as in Python's stable `sorted`/`list.sort`. -/
def insertStable {α : Type} (le : α → α → Bool) (x : α) : List α → List α
  | [] => [x]
  | y :: ys => if le y x then y :: insertStable le x ys else x :: y :: ys

/-- Python's stable sort (Timsort) modelled as a stable insertion sort:
elements are inserted left to right, each after the equal elements that
preceded it.  Structurally recursive so that concrete runs reduce in the
kernel. -/
def pySort {α : Type} (le : α → α → Bool) (xs : List α) : List α :=
  xs.foldl (fun acc x => insertStable le x acc) []

/-- initialize.py `_cost_of`: the source returns
`log2(1 + 1/(1 + num_tokens))`; the embedding uses the order-isomorphic
rational `1/(1 + num_tokens)` (see the header comment). -/
def _cost_of (num_tokens : Nat) : Rat :=
  mkRat 1 (1 + num_tokens)

/-- initialize.py `_tokens_by_class_of`, as a total function: the source
builds a `defaultdict(set)`, so looking up an unknown class yields the empty
set rather than raising. -/
def _tokens_by_class_of (tokens : List (String × List String)) (cls : String) : List String :=
  (tokens.filter (fun p => p.2.contains cls)).map (fun p => p.1)

/-- initialize.py `_tokenizer_pattern_from` sorts the declared token strings
by `(len(x), x)` in reverse and joins them into the regex alternation
`(t1|t2|...)`.  Because `re` alternation takes the first alternative matching
at the position and all alternatives are escaped literals, the pattern is
fully described by this sorted list: longest first, ties in reverse lexical
order. -/
def tokenizerLE (a b : String) : Bool :=
  b.length < a.length ∨ (b.length = a.length ∧ ¬ a < b)

/-- The sorted token list underlying the tokenizer pattern. -/
def _tokenizer_pattern_from (tokens : List String) : List String :=
  pySort tokenizerLE tokens

/-- Truthiness of an optional list (Python `if x:`: `None` and `[]` are
falsy). -/
def optTruthy (o : Option (List String)) : Bool :=
  match o with
  | some (_ :: _) => true
  | _ => false

/-- Keep an optional list only if truthy (used where Python stores a dict key
only under an `if value:` guard). -/
def truthyOpt (o : Option (List String)) : Option (List String) :=
  match o with
  | some (x :: xs) => some (x :: xs)
  | _ => none

/-- initialize.py lines 183-199: the constraints dict attached to the edge
into a rule leaf, with keys inserted in the fixed source order and only for
truthy values. -/
def constraintsOf (r : TransliterationRule) : Option EdgeConstraints :=
  if optTruthy r.prev_classes ∨ optTruthy r.prev_tokens
      ∨ optTruthy r.next_tokens ∨ optTruthy r.next_classes then
    some { prev_classes := truthyOpt r.prev_classes
           prev_tokens := truthyOpt r.prev_tokens
           next_tokens := truthyOpt r.next_tokens
           next_classes := truthyOpt r.next_classes }
  else none

/-- initialize.py lines 164-167: read the edge's cost with default `1`
(`curr_edge.get("cost", 1)`) and lower it to the rule's cost when that is
strictly smaller.  The edge always exists at this point; a missing edge
leaves the graph unchanged (unreachable). -/
def updateEdgeCost (g : DirectedGraph) (h t : Nat) (rcost : Rat) : DirectedGraph :=
  match getEdge? g h t with
  | none => g
  | some d =>
      if rcost < d.cost.getD 1 then
        updateEdge g h t (fun e => { e with cost := some rcost })
      else g

/-- initialize.py lines 154-169: walk one token from `parent_key`, reusing
the existing token child or creating node + edge + `token_children` entry,
then apply the cost update to the traversed edge. -/
def insertTokenStep (rcost : Rat) (st : DirectedGraph × Nat) (token : String) :
    DirectedGraph × Nat :=
  let g := st.1
  let parent_key := st.2
  let parent_node := getNodeD g parent_key
  let token_children := parent_node.token_children.getD []
  match token_children.lookup token with
  | some k => (updateEdgeCost g parent_key k rcost, k)
  | none =>
      let gk := addNode g { type := "token", token := some token }
      let g2 := addEdge gk.1 parent_key gk.2 { token := some token }
      let g3 := setNode g2 parent_key
        { parent_node with token_children := some (token_children ++ [(token, gk.2)]) }
      (updateEdgeCost g3 parent_key gk.2 rcost, gk.2)

/-- Sort key of initialize.py lines 177-179 and 207-209:
`rules[graph.node[x]["rule_key"]].cost`.  The node and rule lookups always
succeed for keys produced by the construction; defaults stand in for the
unreachable failure. -/
def ruleChildLE (rules : List TransliterationRule) (g : DirectedGraph) (x y : Nat) : Bool :=
  decide (((rules.get? ((getNodeD g x).rule_key.getD 0)).getD default).cost
    ≤ ((rules.get? ((getNodeD g y).rule_key.getD 0)).getD default).cost)

/-- initialize.py lines 171-199: attach the accepting rule leaf for
`rule_key` below `parent_key`, keep the parent's `rule_children` sorted by
rule cost, and record the leaf edge with the rule's cost and constraints. -/
def attachRule (rules : List TransliterationRule) (g : DirectedGraph)
    (parent_key rule_key : Nat) (r : TransliterationRule) : DirectedGraph :=
  let gk := addNode g { type := "rule", rule_key := some rule_key, accepting := true }
  let g1 := gk.1
  let leaf := gk.2
  let parent_node := getNodeD g1 parent_key
  let rule_children := (parent_node.rule_children.getD []) ++ [leaf]
  let g2 := setNode g1 parent_key
    { parent_node with rule_children := some (pySort (ruleChildLE rules g1) rule_children) }
  addEdge g2 parent_key leaf { cost := some r.cost, constraints := constraintsOf r }

/-- initialize.py lines 149-199 (first phase of `_graph_from`): insert every
rule into the trie. -/
def graphPhase1 (rules : List TransliterationRule) : DirectedGraph :=
  rules.enum.foldl
    (fun g rk =>
      let st := rk.2.tokens.foldl (insertTokenStep rk.2.cost) (g, 0)
      attachRule rules st.1 st.2 rk.1 rk.2)
    ⟨[{ type := "Start" }], []⟩

/-- The sort key `graph.edge[node_key][x]["cost"]` of initialize.py line 226;
a missing edge or missing `"cost"` entry raises `KeyError`. -/
def edgeCostKey (g : DirectedGraph) (h t : Nat) : Except PyErr Rat :=
  match getEdge? g h t with
  | none => .error .keyEdge
  | some d =>
      match d.cost with
      | none => .error .keyCost
      | some c => .ok c

/-- Python's `list.sort(key=...)` evaluates the key of every element (even
for singleton lists) and then sorts stably; a `KeyError` in the key aborts. -/
def sortByEdgeCost (g : DirectedGraph) (h : Nat) (ks : List Nat) :
    Except PyErr (List Nat) := do
  let keyed ← ks.mapM (fun k => do
    let c ← edgeCostKey g h k
    pure (k, c))
  pure ((pySort (fun a b => decide (a.2 ≤ b.2)) keyed).map (fun p => p.1))

/-- initialize.py lines 201-230 for one node: build `ordered_children` (the
`__rules__` entry first, then one entry per token child, each sorted by edge
cost), popping `rule_children` and `token_children`. -/
def graphPhase2Node (rules : List TransliterationRule) (g : DirectedGraph)
    (node_key : Nat) (n : GraphNode) : Except PyErr GraphNode := do
  let rule_children_keys := n.rule_children
  let rulesEntry : List (String × List Nat) :=
    match rule_children_keys with
    | some (k :: ks) => [("__rules__", pySort (ruleChildLE rules g) (k :: ks))]
    | _ => []
  let n1 :=
    match rule_children_keys with
    | some (_ :: _) => { n with rule_children := none }
    | _ => n
  match n.token_children with
  | some (tc0 :: tcs) => do
      let tokEntries ← (tc0 :: tcs).mapM (fun p => do
        let lst := p.2 :: (match rule_children_keys with | some ks => ks | none => [])
        let sorted ← sortByEdgeCost g node_key lst
        pure (p.1, sorted))
      pure { n1 with token_children := none, ordered_children := some (rulesEntry ++ tokEntries) }
  | _ => pure { n1 with ordered_children := some rulesEntry }

/-- initialize.py lines 201-232 (second phase of `_graph_from`).  The source
mutates nodes in place while iterating; the only cross-node reads are leaf
`rule_key` fields (never changed by this pass) and `graph.edge` (untouched),
so mapping over the snapshot is faithful. -/
def graphPhase2 (rules : List TransliterationRule) (g : DirectedGraph) :
    Except PyErr DirectedGraph := do
  let nodes ← g.node.enum.mapM (fun p => graphPhase2Node rules g p.1 p.2)
  pure { g with node := nodes }

/-- initialize.py `_graph_from`. -/
def _graph_from (rules : List TransliterationRule) : Except PyErr DirectedGraph :=
  graphPhase2 rules (graphPhase1 rules)

/-- Loop of core.py `_match_tokens` (lines 456-461): check `c_value` against
`tokens` starting at `start_i`, by class membership (against the engine's
token → classes dict `tokensMap`) or by identity.  A list access out of range
is `keyIndex`; a token absent from the dict is `keyClasses`. -/
def matchTokensGo (tokensMap : List (String × List String)) (tokens : List String)
    (start_i : Int) (by_class : Bool) : Nat → List String → Except PyErr Bool
  | _, [] => .ok true
  | i, c :: cs =>
    match pyGet tokens (start_i + i) with
    | none => .error .keyIndex
    | some tok =>
      if by_class then
        match tokensMap.lookup tok with
        | none => .error .keyClasses
        | some classes =>
          if classes.contains c then matchTokensGo tokensMap tokens start_i by_class (i + 1) cs
          else .ok false
      else
        if tok = c then matchTokensGo tokensMap tokens start_i by_class (i + 1) cs
        else .ok false

/-- core.py `_match_tokens` (lines 447-462), with its two boundary guards. -/
def _match_tokens (tokensMap : List (String × List String)) (tokens : List String)
    (start_i : Int) (c_value : List String)
    (check_prev check_next by_class : Bool) : Except PyErr Bool :=
  if check_prev ∧ start_i < 0 then .ok false
  else if check_next ∧ start_i + c_value.length > (tokens.length : Int) then .ok false
  else matchTokensGo tokensMap tokens start_i by_class 0 c_value

/-- core.py lines 284-306 (`prev_classes` constraint): the window start is
`token_i - len(rule.tokens) - len(prev_tokens if truthy) - len(c_value)`;
reading `curr_node["rule"]` raises `KeyError` when the node has no `rule`
entry. -/
def prevClassesCheck (tokensMap : List (String × List String)) (tokens : List String)
    (cs : EdgeConstraints) (curr_node : GraphNode) (token_i : Nat) : Except PyErr Bool :=
  match cs.prev_classes with
  | none => .ok true
  | some c_value =>
    match curr_node.rule with
    | none => .error .keyRule
    | some rule =>
      let start_at : Int := (token_i : Int) - rule.tokens.length
        - (match cs.prev_tokens with | some (p :: ps) => ((p :: ps).length : Int) | _ => 0)
        - c_value.length
      _match_tokens tokensMap tokens start_at c_value true false true

/-- core.py lines 248-267 (`prev_tokens` constraint). -/
def prevTokensCheck (tokensMap : List (String × List String)) (tokens : List String)
    (cs : EdgeConstraints) (curr_node : GraphNode) (token_i : Nat) : Except PyErr Bool :=
  match cs.prev_tokens with
  | none => .ok true
  | some c_value =>
    match curr_node.rule with
    | none => .error .keyRule
    | some rule =>
      let start_at : Int := (token_i : Int) - rule.tokens.length - c_value.length
      _match_tokens tokensMap tokens start_at c_value true false false

/-- core.py lines 268-282 (`next_tokens` constraint). -/
def nextTokensCheck (tokensMap : List (String × List String)) (tokens : List String)
    (cs : EdgeConstraints) (token_i : Nat) : Except PyErr Bool :=
  match cs.next_tokens with
  | none => .ok true
  | some c_value =>
    _match_tokens tokensMap tokens (token_i : Int) c_value false true false

/-- core.py lines 308-325 (`next_classes` constraint): the window starts
after the `next_tokens` if those are present (truthy). -/
def nextClassesCheck (tokensMap : List (String × List String)) (tokens : List String)
    (cs : EdgeConstraints) (token_i : Nat) : Except PyErr Bool :=
  match cs.next_classes with
  | none => .ok true
  | some c_value =>
    let start_at : Int := (token_i : Int)
      + (match cs.next_tokens with | some (p :: ps) => ((p :: ps).length : Int) | _ => 0)
    _match_tokens tokensMap tokens start_at c_value false true true

/-- core.py `_match_constraints` (lines 236-327).  The constraints dict is
iterated in insertion order (`prev_classes`, `prev_tokens`, `next_tokens`,
`next_classes`, see `constraintsOf`); the first failing constraint returns
`False`, and all present constraints must pass. -/
def _match_constraints (tokensMap : List (String × List String)) (tokens : List String)
    (target_edge : EdgeData) (curr_node : GraphNode) (token_i : Nat) : Except PyErr Bool :=
  match target_edge.constraints with
  | none => .ok true
  | some cs =>
    match prevClassesCheck tokensMap tokens cs curr_node token_i with
    | .error e => .error e
    | .ok false => .ok false
    | .ok true =>
      match prevTokensCheck tokensMap tokens cs curr_node token_i with
      | .error e => .error e
      | .ok false => .ok false
      | .ok true =>
        match nextTokensCheck tokensMap tokens cs token_i with
        | .error e => .error e
        | .ok false => .ok false
        | .ok true =>
          match nextClassesCheck tokensMap tokens cs token_i with
          | .error e => .error e
          | .ok false => .ok false
          | .ok true => .ok true

/-- core.py `_append_children` (lines 402-419): the frames pushed onto the
stack for `node_key` at `token_i`, in the order they will be popped (the
source pushes them reversed onto the front of a deque, so the net effect is
prepending this list).  An empty or missing `ordered_children` dict is falsy
and pushes nothing without touching `tokens`; otherwise `tokens[token_i]` is
read, and an empty child list (falsy) falls through to the `__rules__`
entry. -/
def appendChildren (g : DirectedGraph) (tokens : List String) (node_key token_i : Nat) :
    Except PyErr (List (Nat × Nat × Nat)) :=
  match getNode? g node_key with
  | none => .error .keyNode
  | some n =>
    match n.ordered_children with
    | none => .ok []
    | some [] => .ok []
    | some (oc0 :: ocs) =>
      match tokens.get? token_i with
      | none => .error .keyIndex
      | some tok =>
        match (oc0 :: ocs).lookup tok with
        | some (c :: cs) => .ok ((c :: cs).map (fun k => (k, node_key, token_i)))
        | _ =>
          match (oc0 :: ocs).lookup "__rules__" with
          | some (c :: cs) => .ok ((c :: cs).map (fun k => (k, node_key, token_i)))
          | _ => .ok []

/-- core.py lines 441-443: advance the token index, clamped at the final
index `len(tokens) - 1`, and compute the frames for the node's children
there. -/
def advanceFrames (g : DirectedGraph) (tokens : List String) (node_key token_i : Nat) :
    Except PyErr (List (Nat × Nat × Nat)) :=
  let ti := if token_i < tokens.length - 1 then token_i + 1 else token_i
  appendChildren g tokens node_key ti

/-- One iteration of the `match_at` stack loop (core.py lines 423-443) on
the popped frame `(node_key, parent_key, token_i)`: check the bounds
assertion, fetch the node and its incident edge (the edge is read before the
accepting test, as in the source), and either report a matched rule key
(`Sum.inl`) when the node is accepting and its constraints pass, or the
frames to push for its children at the advanced index (`Sum.inr`). -/
def matchStep (g : DirectedGraph) (tokensMap : List (String × List String))
    (tokens : List String) (f : Nat × Nat × Nat) :
    Except PyErr (Sum Nat (List (Nat × Nat × Nat))) :=
  if f.2.2 < tokens.length then
    match getNode? g f.1 with
    | none => .error .keyNode
    | some curr_node =>
      match getEdge? g f.2.1 f.1 with
      | none => .error .keyEdge
      | some incident_edge =>
        if curr_node.accepting then
          match _match_constraints tokensMap tokens incident_edge curr_node f.2.2 with
          | .error e => .error e
          | .ok true =>
            match curr_node.rule_key with
            | none => .error .keyRuleKey
            | some rk => .ok (.inl rk)
          | .ok false => (advanceFrames g tokens f.1 f.2.2).map .inr
        else (advanceFrames g tokens f.1 f.2.2).map .inr
  else .error .assertBound

/-- The stack loop of core.py `match_at` (lines 423-445) with
`match_all=True`: `acc` (the source variable `matches`) accumulates the rule
keys of accepting leaves whose constraints pass; a matched frame is consumed
without pushing children (`continue`).  Fuel exhaustion gives `none`. -/
def matchAllLoop (g : DirectedGraph) (tokensMap : List (String × List String))
    (tokens : List String) :
    Nat → List (Nat × Nat × Nat) → List Nat → Option (Except PyErr (List Nat))
  | 0, _, _ => none
  | _ + 1, [], acc => some (.ok acc)
  | fuel + 1, f :: rest, acc =>
    match matchStep g tokensMap tokens f with
    | .error e => some (.error e)
    | .ok (.inl rk) => matchAllLoop g tokensMap tokens fuel rest (acc ++ [rk])
    | .ok (.inr fs) => matchAllLoop g tokensMap tokens fuel (fs ++ rest) acc

/-- The stack loop of core.py `match_at` with `match_all=False`: identical
traversal, but the first accepting leaf whose constraints pass is returned
immediately; an exhausted stack yields `None`. -/
def matchSingleLoop (g : DirectedGraph) (tokensMap : List (String × List String))
    (tokens : List String) :
    Nat → List (Nat × Nat × Nat) → Option (Except PyErr (Option Nat))
  | 0, _ => none
  | _ + 1, [] => some (.ok none)
  | fuel + 1, f :: rest =>
    match matchStep g tokensMap tokens f with
    | .error e => some (.error e)
    | .ok (.inl rk) => some (.ok (some rk))
    | .ok (.inr fs) => matchSingleLoop g tokensMap tokens fuel (fs ++ rest)

/-- core.py `match_at` with `match_all=True`: seed the stack with the root's
children at `token_i` and run the loop. -/
def match_at_all (g : DirectedGraph) (tokensMap : List (String × List String))
    (tokens : List String) (token_i : Nat) (fuel : Nat) :
    Option (Except PyErr (List Nat)) :=
  match appendChildren g tokens 0 token_i with
  | .error e => some (.error e)
  | .ok fs => matchAllLoop g tokensMap tokens fuel fs []

/-- core.py `match_at` with `match_all=False` (the default). -/
def match_at (g : DirectedGraph) (tokensMap : List (String × List String))
    (tokens : List String) (token_i : Nat) (fuel : Nat) :
    Option (Except PyErr (Option Nat)) :=
  match appendChildren g tokens 0 token_i with
  | .error e => some (.error e)
  | .ok fs => matchSingleLoop g tokensMap tokens fuel fs

/-- ambiguity.py `_count_of_prev` (`rule.prev_classes or []` etc.). -/
def _count_of_prev (r : TransliterationRule) : Nat :=
  (r.prev_classes.getD []).length + (r.prev_tokens.getD []).length

/-- ambiguity.py `_count_of_curr_and_next`. -/
def _count_of_curr_and_next (r : TransliterationRule) : Nat :=
  r.tokens.length + (r.next_tokens.getD []).length + (r.next_classes.getD []).length

/-- ambiguity.py `_prev_tokens_possible`: classes expand to their token sets,
tokens to singletons. -/
def _prev_tokens_possible (r : TransliterationRule) (tbc : String → List String) :
    List (List String) :=
  (r.prev_classes.getD []).map tbc ++ (r.prev_tokens.getD []).map (fun t => [t])

/-- ambiguity.py `_curr_and_next_tokens_possible`. -/
def _curr_and_next_tokens_possible (r : TransliterationRule) (tbc : String → List String) :
    List (List String) :=
  r.tokens.map (fun t => [t]) ++ (r.next_tokens.getD []).map (fun t => [t])
    ++ (r.next_classes.getD []).map tbc

/-- ambiguity.py `_tokens_possible`. -/
def _tokens_possible (r : TransliterationRule) (tbc : String → List String) :
    List (List String) :=
  _prev_tokens_possible r tbc ++ _curr_and_next_tokens_possible r tbc

/-- The slot-matrix width of `check_for_ambiguity`:
`global_max_prev + global_max_curr_next` (a `max` over a non-empty list, so
folding from 0 agrees with Python's `max`). -/
def ambiguityWidth (rules : List TransliterationRule) : Nat :=
  (rules.map _count_of_prev).foldl Nat.max 0
    + (rules.map _count_of_curr_and_next).foldl Nat.max 0

/-- ambiguity.py lines 72-80: each rule's aligned slot vector, padded left to
the global maximum previous-context length and right to the full width with
the set of all declared tokens. -/
def ambiguityMatrix (tokens : List (String × List String))
    (rules : List TransliterationRule) : List (List (List String)) :=
  let all_tokens := tokens.map (fun p => p.1)
  let tbc := _tokens_by_class_of tokens
  let global_max_prev := (rules.map _count_of_prev).foldl Nat.max 0
  let width := ambiguityWidth rules
  rules.map (fun r =>
    let row := List.replicate (global_max_prev - _count_of_prev r) all_tokens
      ++ _tokens_possible r tbc
    row ++ List.replicate (width - row.length) all_tokens)

/-- ambiguity.py `full_intersection`: position-wise intersection of the slot
vectors of rules `i` and `j`, `none` as soon as some position is empty. -/
def full_intersection (matrix : List (List (List String))) (width i j : Nat) :
    Option (List (List String)) :=
  (List.range width).foldlM
    (fun acc k =>
      let inter := listInter ((matrix.getD i []).getD k []) ((matrix.getD j []).getD k [])
      if inter.isEmpty then none else some (acc ++ [inter]))
    []

/-- ambiguity.py `covered_by`: the intersection is position-wise a subset of
`row`. -/
def covered_by (intersection row : List (List String)) : Bool :=
  (List.range intersection.length).all
    (fun i => listSubsetB (intersection.getD i []) (row.getD i []))

/-- ambiguity.py `covered_by_less_costly` (lines 121-130): scan all rules
other than the pair itself, skipping those of cost strictly greater than
rule `i_index`'s cost — so rules of equal cost are admitted as coverers. -/
def covered_by_less_costly (rules : List TransliterationRule)
    (matrix : List (List (List String))) (intersection : List (List String))
    (i_index j_index : Nat) : Bool :=
  rules.enum.any (fun rp =>
    if rp.1 = i_index ∨ rp.1 = j_index then false
    else if ((rules.get? i_index).getD default).cost < rp.2.cost then false
    else covered_by intersection (matrix.getD rp.1 []))

/-- One pass of `itertools.groupby`: `cur` is the current run (reversed),
`key` its cost; a new run starts whenever the next element's cost differs. -/
def groupRunsGo (cur : List (Nat × TransliterationRule)) (key : Rat) :
    List (Nat × TransliterationRule) → List (List (Nat × TransliterationRule))
  | [] => [cur.reverse]
  | y :: ys =>
    if y.2.cost = key then groupRunsGo (y :: cur) key ys
    else cur.reverse :: groupRunsGo [y] y.2.cost ys

/-- `itertools.groupby(enumerate(rules), key=cost)`: maximal consecutive runs
of equal-cost rules, each with its global indices. -/
def groupRuns : List (Nat × TransliterationRule) → List (List (Nat × TransliterationRule))
  | [] => []
  | x :: xs => groupRunsGo [x] x.2.cost xs

/-- The inner `for j in range(i + 1, len(group))` loop of
`check_for_ambiguity` (lines 112-142): `break` on the first pair with an
empty intersection — later pairs for this `i` are then never examined — and
otherwise flag the pair unless some rule of cost not above the pair's covers
the intersection. -/
def ambigJLoop (rules : List TransliterationRule) (matrix : List (List (List String)))
    (width i_index : Nat) : List (Nat × TransliterationRule) → Bool
  | [] => false
  | y :: rest =>
    match full_intersection matrix width i_index y.1 with
    | none => false
    | some intersection =>
      (! covered_by_less_costly rules matrix intersection i_index y.1)
        || ambigJLoop rules matrix width i_index rest

/-- The outer `for i in range(len(group) - 1)` loop of
`check_for_ambiguity`. -/
def ambigILoop (rules : List TransliterationRule) (matrix : List (List (List String)))
    (width : Nat) : List (Nat × TransliterationRule) → Bool
  | [] => false
  | x :: rest => ambigJLoop rules matrix width x.1 rest || ambigILoop rules matrix width rest

/-- ambiguity.py / core.py `check_for_ambiguity`: raise
`AmbiguousTransliterationRulesException` when any cost group's pair scan
flags an uncovered overlap; an empty rule list returns immediately. -/
def check_for_ambiguity (tokens : List (String × List String))
    (rules : List TransliterationRule) : Except PyErr Unit :=
  match rules with
  | [] => .ok ()
  | _ :: _ =>
    let matrix := ambiguityMatrix tokens rules
    let amb := (groupRuns rules.enum).any (fun group =>
      if group.length = 1 then false
      else ambigILoop rules matrix (ambiguityWidth rules) group)
    if amb then .error .ambiguousRules else .ok ()

/-- Insert `i` into the inner `{prev_token: [rule indices]}` dict. -/
def onmatchInner (inner : List (String × List Nat)) (prev : String) (i : Nat) :
    List (String × List Nat) :=
  match inner.lookup prev with
  | none => inner ++ [(prev, [i])]
  | some _ => inner.map (fun p => if p.1 = prev then (p.1, p.2 ++ [i]) else p)

/-- Insert `i` under `(tok, prev)` in the onmatch lookup dict. -/
def onmatchOuter (outer : List (String × List (String × List Nat))) (tok prev : String)
    (i : Nat) : List (String × List (String × List Nat)) :=
  match outer.lookup tok with
  | none => outer ++ [(tok, [(prev, [i])])]
  | some _ => outer.map (fun p => if p.1 = tok then (p.1, onmatchInner p.2 prev i) else p)

/-- initialize.py `_onmatch_rules_lookup`: for each onmatch rule and each
token pair whose classes contain the rule's first next class and last prev
class, record the rule index under current → previous token.  (The source
indexes `next_classes[0]` and `prev_classes[-1]`; validated onmatch rules
always have non-empty class lists, so the defaults are unreachable.) -/
def _onmatch_rules_lookup (tokens : List (String × List String))
    (onmatch_rules : List OnMatchRule) : List (String × List (String × List Nat)) :=
  onmatch_rules.enum.foldl
    (fun lk ri =>
      tokens.foldl
        (fun lk2 tkc =>
          if tkc.2.contains (ri.2.next_classes.headD "") then
            tokens.foldl
              (fun lk3 ptkc =>
                if ptkc.2.contains (ri.2.prev_classes.getLastD "") then
                  onmatchOuter lk3 tkc.1 ptkc.1 ri.1
                else lk3)
              lk2
          else lk2)
        lk)
    []

/-- The engine object built by `GraphTransliterator.__init__`: the settings
plus the derived onmatch lookup, graph and tokenizer (the tokenizer pattern
is represented by its sorted token list, see `_tokenizer_pattern_from`). -/
structure GraphTransliterator where
  tokens : List (String × List String)
  rules : List TransliterationRule
  whitespace : WhitespaceRules
  onmatch_rules : Option (List OnMatchRule) := none
  onmatch_rules_lookup : Option (List (String × List (String × List Nat))) := none
  ignore_errors : Bool := false
  check_ambiguity : Bool := false
  graph : DirectedGraph := default
  tokenizer_tokens : List String := []
deriving DecidableEq, Inhabited

/-- core.py `GraphTransliterator.__init__` (lines 179-234) for engines built
from settings (no precomputed graph/lookups): run the ambiguity check when
`check_ambiguity` is set, keep `onmatch_rules` only when truthy and derive
their lookup, derive the tokenizer pattern and the graph. -/
def mkGraphTransliterator (tokens : List (String × List String))
    (rules : List TransliterationRule) (whitespace : WhitespaceRules)
    (onmatch_rules : Option (List OnMatchRule)) (ignore_errors check_ambiguity : Bool) :
    Except PyErr GraphTransliterator :=
  match (if check_ambiguity then check_for_ambiguity tokens rules else .ok ()) with
  | .error e => .error e
  | .ok _ =>
    let oms : Option (List OnMatchRule) :=
      match onmatch_rules with
      | some (x :: xs) => some (x :: xs)
      | _ => none
    let lookup := match oms with
      | some l => some (_onmatch_rules_lookup tokens l)
      | none => none
    let tokenizer_tokens := _tokenizer_pattern_from (tokens.map (fun p => p.1))
    match _graph_from rules with
    | .error e => .error e
    | .ok graph =>
      .ok { tokens := tokens, rules := rules, whitespace := whitespace,
            onmatch_rules := oms, onmatch_rules_lookup := lookup,
            ignore_errors := ignore_errors, check_ambiguity := check_ambiguity,
            graph := graph, tokenizer_tokens := tokenizer_tokens }

/-- Python substring containment (`needle in hay` on strings), structurally
recursive. -/
def isSubstr (needle hay : List Char) : Bool :=
  match hay with
  | [] => needle.isEmpty
  | _ :: t => needle.isPrefixOf hay || isSubstr needle t

/-- The dynamically typed `productions` argument of `pruned_of`: a single
string or a list of strings. -/
inductive PyProductions where
  | str (s : String)
  | list (l : List String)
deriving DecidableEq

/-- Python `production not in productions` (core.py line 758): substring
containment when `productions` is a string, membership when it is a list. -/
def pyNotIn (p : String) : PyProductions → Bool
  | .str s => ! isSubstr p.toList s.toList
  | .list l => ! l.contains p

/-- core.py `pruned_of` (lines 711-767): filter out rules whose production
is `in productions` and rebuild a new engine from the original
initialization parameters (re-running the ambiguity check if it was enabled
and rebuilding the graph). -/
def pruned_of (gt : GraphTransliterator) (productions : PyProductions) :
    Except PyErr GraphTransliterator :=
  mkGraphTransliterator gt.tokens
    (gt.rules.filter (fun r => pyNotIn r.production productions))
    gt.whitespace gt.onmatch_rules gt.ignore_errors gt.check_ambiguity

/-- The regex match `self._tokenizer.match(input, pos)`: the pattern is an
alternation of escaped literals in the `_tokenizer_pattern_from` order, and
`re` takes the first alternative that matches at the position, i.e. the
first sorted token that is a prefix of the remaining input. -/
def tokMatch (sortedToks : List String) (rest : List Char) : Option String :=
  sortedToks.find? (fun t => t.toList.isPrefixOf rest)

/-- core.py lines 666-668 `is_whitespace`: membership of the whitespace
class in `self.tokens[token]` (`KeyError` when the token is not declared). -/
def is_whitespace (tokensMap : List (String × List String)) (ws : WhitespaceRules)
    (token : String) : Except PyErr Bool :=
  match tokensMap.lookup token with
  | none => .error .keyClasses
  | some classes => .ok (classes.contains ws.token_class)

/-- The scan loop of core.py `tokenize` (lines 676-699), on the remaining
input suffix: match the longest declared token, consolidate whitespace
runs, and on no match either raise `UnrecognizableInputTokenException` or
(ignoring errors) skip one character. -/
def tokenizeScan (tokensMap : List (String × List String)) (ws : WhitespaceRules)
    (sortedToks : List String) (ignore_errors : Bool) :
    Nat → List Char → Bool → List String → Option (Except PyErr (List String))
  | 0, _, _, _ => none
  | fuel + 1, rest, prevWs, acc =>
    match rest with
    | [] => some (.ok acc)
    | _ :: _ =>
      match tokMatch sortedToks rest with
      | some token =>
        let rest2 := rest.drop token.toList.length
        match is_whitespace tokensMap ws token with
        | .error e => some (.error e)
        | .ok true =>
          if prevWs ∧ ws.consolidate then
            tokenizeScan tokensMap ws sortedToks ignore_errors fuel rest2 prevWs acc
          else
            tokenizeScan tokensMap ws sortedToks ignore_errors fuel rest2 true (acc ++ [token])
        | .ok false =>
          tokenizeScan tokensMap ws sortedToks ignore_errors fuel rest2 false (acc ++ [token])
      | none =>
        if ignore_errors then
          tokenizeScan tokensMap ws sortedToks ignore_errors fuel (rest.drop 1) prevWs acc
        else some (.error .unrecognizableInputToken)

/-- The loop of core.py lines 701-703 on the reversed token list: drop
leading (= originally trailing) whitespace tokens while more than one token
remains. -/
def stripTrailingWsRev (tokensMap : List (String × List String)) (ws : WhitespaceRules) :
    List String → Except PyErr (List String)
  | [] => .ok []
  | [x] => .ok [x]
  | x :: y :: rest =>
    match is_whitespace tokensMap ws x with
    | .error e => .error e
    | .ok true => stripTrailingWsRev tokensMap ws (y :: rest)
    | .ok false => .ok (x :: y :: rest)

/-- core.py lines 701-703: with consolidation, pop trailing whitespace
tokens while more than one token remains. -/
def stripTrailingWs (tokensMap : List (String × List String)) (ws : WhitespaceRules)
    (acc : List String) : Except PyErr (List String) :=
  (stripTrailingWsRev tokensMap ws acc.reverse).map (fun l => l.reverse)

/-- core.py `tokenize` (lines 632-709): start from the default whitespace
sentinel, scan, strip trailing whitespace under consolidation, append the
final sentinel, and check the `len(tokens) >= 2` assertion. -/
def tokenize (gt : GraphTransliterator) (fuel : Nat) (input : List Char) :
    Option (Except PyErr (List String)) :=
  match tokenizeScan gt.tokens gt.whitespace gt.tokenizer_tokens gt.ignore_errors
      fuel input true [gt.whitespace.default] with
  | none => none
  | some (.error e) => some (.error e)
  | some (.ok toks) =>
    match (if gt.whitespace.consolidate then stripTrailingWs gt.tokens gt.whitespace toks
           else .ok toks) with
    | .error e => some (.error e)
    | .ok toks2 =>
      let final := toks2 ++ [gt.whitespace.default]
      if 2 ≤ final.length then some (.ok final) else some (.error .assertBound)

/-- core.py lines 605-627: try the applicable onmatch rules in order and
return the production of the first whose class windows both match; Python's
`and` short-circuits, so the `next_classes` window is only checked when the
`prev_classes` window matched. -/
def onmatchApply (gt : GraphTransliterator) (tokens : List String) (token_i : Nat) :
    List Nat → Except PyErr String
  | [] => .ok ""
  | i :: rest =>
    match (gt.onmatch_rules.getD []).get? i with
    | none => .error .keyIndex
    | some onmatch => do
      let b1 ← _match_tokens gt.tokens tokens ((token_i : Int) - onmatch.prev_classes.length)
        onmatch.prev_classes true false true
      if b1 = false then onmatchApply gt tokens token_i rest
      else do
        let b2 ← _match_tokens gt.tokens tokens (token_i : Int) onmatch.next_classes
          false true true
        if b2 then .ok onmatch.production else onmatchApply gt tokens token_i rest

/-- core.py lines 597-627: the onmatch production inserted before a matched
rule's own production (empty when there are no onmatch rules or no lookup
entry applies). -/
def onmatchProduction (gt : GraphTransliterator) (tokens : List String) (token_i : Nat) :
    Except PyErr String :=
  match gt.onmatch_rules with
  | none => .ok ""
  | some _ =>
    match gt.onmatch_rules_lookup with
    | none => .error .keyClasses
    | some lk =>
      match pyGet tokens ((token_i : Int) - 1) with
      | none => .error .keyIndex
      | some prev_t =>
        match pyGet tokens (token_i : Int) with
        | none => .error .keyIndex
        | some curr_t =>
          match lk.lookup curr_t with
          | none => .ok ""
          | some [] => .ok ""
          | some (e :: es) =>
            match (e :: es).lookup prev_t with
            | none => .ok ""
            | some [] => .ok ""
            | some (i :: is) => onmatchApply gt tokens token_i (i :: is)

/-- The driving loop of core.py `transliterate` (lines 578-630): from the
position after the initial whitespace up to the final whitespace, match the
best rule, handle a missing match per `ignore_errors`, insert the onmatch
production, append the rule's production, and advance by the number of
matched tokens. -/
def translitLoop (gt : GraphTransliterator) (tokens : List String) :
    Nat → Nat → String → Option (Except PyErr String)
  | 0, _, _ => none
  | fuel + 1, token_i, output =>
    if token_i < tokens.length - 1 then
      match match_at gt.graph gt.tokens tokens token_i (fuel + 1) with
      | none => none
      | some (.error e) => some (.error e)
      | some (.ok none) =>
        if gt.ignore_errors then translitLoop gt tokens fuel (token_i + 1) output
        else some (.error .noMatchingRule)
      | some (.ok (some rule_key)) =>
        match gt.rules.get? rule_key with
        | none => some (.error .keyIndex)
        | some rule =>
          match onmatchProduction gt tokens token_i with
          | .error e => some (.error e)
          | .ok om =>
            translitLoop gt tokens fuel (token_i + rule.tokens.length)
              (output ++ om ++ rule.production)
    else some (.ok output)

/-- core.py `transliterate` (lines 530-630): tokenize (adding the whitespace
sentinels) and run the driving loop from position 1. -/
def transliterate (gt : GraphTransliterator) (fuel : Nat) (input : List Char) :
    Option (Except PyErr String) :=
  match tokenize gt fuel input with
  | none => none
  | some (.error e) => some (.error e)
  | some (.ok toks) => translitLoop gt toks fuel 1 ""

/-! ### Concrete engines used by the claim theorems -/

/-- Standard whitespace configuration used by the concrete engines. -/
def wsStd : WhitespaceRules := { default := " ", token_class := "wb", consolidate := false }

/-- Rule `a b (z w)` (tokens `a b`, next tokens `z w`), derived cost for four
tokens. -/
def rC1a : TransliterationRule :=
  { production := "R0", prev_classes := none, prev_tokens := none,
    tokens := ["a", "b"], next_tokens := some ["z", "w"], next_classes := none,
    cost := _cost_of 4 }

/-- Rule `a (b <C>)` (token `a`, next token `b`, next class `C`), derived
cost for three tokens. -/
def rC1b : TransliterationRule :=
  { production := "R1", prev_classes := none, prev_tokens := none,
    tokens := ["a"], next_tokens := some ["b"], next_classes := some ["C"],
    cost := _cost_of 3 }

/-- Rule `a b` with no context, derived cost for two tokens. -/
def rC1c : TransliterationRule :=
  { production := "R2", prev_classes := none, prev_tokens := none,
    tokens := ["a", "b"], next_tokens := none, next_classes := none,
    cost := _cost_of 2 }

/-- The cost-sorted rule list of the claim C1 engine. -/
def rulesC1 : List TransliterationRule := [rC1a, rC1b, rC1c]

/-- Declared tokens of the claim C1 engine. -/
def tmC1 : List (String × List String) :=
  [("a", []), ("b", []), ("m", ["C"]), ("z", []), ("w", []), (" ", ["wb"])]

/-- A whitespace-bounded token list for the claim C1 engine. -/
def toksC1 : List String := [" ", "a", "b", "m", " "]

/-- The compiled graph of the claim C1 engine (construction succeeds, see
the counterexample theorem). -/
def gC1 : DirectedGraph := ((_graph_from rulesC1).toOption).getD default

/-- A rule `<wb> a` with a previous-class constraint (claim C2). -/
def rC2 : TransliterationRule :=
  { production := "A", prev_classes := some ["wb"], prev_tokens := none,
    tokens := ["a"], next_tokens := none, next_classes := none, cost := _cost_of 2 }

/-- Declared tokens of the claim C2 engine. -/
def tmC2 : List (String × List String) := [("a", ["c1"]), (" ", ["wb"])]

/-- The compiled graph of the claim C2 engine. -/
def gC2 : DirectedGraph := ((_graph_from [rC2]).toOption).getD default

/-- Rule `<c1> a` (claim C3/C8 configurations). -/
def rC3a : TransliterationRule :=
  { production := "X", prev_classes := some ["c1"], prev_tokens := none,
    tokens := ["a"], next_tokens := none, next_classes := none, cost := _cost_of 2 }

/-- Rule `<c2> a`, same cost as `rC3a`. -/
def rC3b : TransliterationRule := { rC3a with production := "Y", prev_classes := some ["c2"] }

/-- Rule `<c3> a`, same cost as `rC3a`. -/
def rC3c : TransliterationRule := { rC3a with production := "Z", prev_classes := some ["c3"] }

/-- Three equal-cost rules on one token carrying all three classes. -/
def rulesC3 : List TransliterationRule := [rC3a, rC3b, rC3c]

/-- Declared tokens for the claim C3 configuration: one token `a` in the
classes `c1`, `c2`, `c3`. -/
def tmC3 : List (String × List String) := [("a", ["c1", "c2", "c3"])]

/-- A rule with an explicitly supplied cost `2`, as `from_dict` permits
(`rule.get("cost", _cost_of(rule))`). -/
def rC4 : TransliterationRule :=
  { production := "X", prev_classes := none, prev_tokens := none,
    tokens := ["a"], next_tokens := none, next_classes := none, cost := 2 }

/-- Rule `a → <A>`. -/
def rC5a : TransliterationRule :=
  { production := "<A>", prev_classes := none, prev_tokens := none,
    tokens := ["a"], next_tokens := none, next_classes := none, cost := _cost_of 1 }

/-- Rule `aa → <AA>`. -/
def rC5aa : TransliterationRule :=
  { production := "<AA>", prev_classes := none, prev_tokens := none,
    tokens := ["aa"], next_tokens := none, next_classes := none, cost := _cost_of 1 }

/-- The engine with declared tokens `a`, `aa` (no classes) and whitespace
`' '`. -/
def eC5 : GraphTransliterator :=
  ((mkGraphTransliterator [("a", []), ("aa", []), (" ", ["wb"])] [rC5a, rC5aa]
    wsStd none false false).toOption).getD default

/-- Rule `aa → A` of the claim C10 engine. -/
def rC10a : TransliterationRule :=
  { production := "A", prev_classes := none, prev_tokens := none,
    tokens := ["aa"], next_tokens := none, next_classes := none,
    cost := _cost_of 1 }

/-- Rule `bbb → X` of the claim C10 engine. -/
def rC10x : TransliterationRule :=
  { production := "X", prev_classes := none, prev_tokens := none,
    tokens := ["bbb"], next_tokens := none, next_classes := none,
    cost := _cost_of 1 }

/-- Engine with productions `A` and `X`, used to exercise string pruning. -/
def eC10 : GraphTransliterator :=
  ((mkGraphTransliterator [("aa", []), ("bbb", []), (" ", ["wb"])]
    [rC10a, rC10x] wsStd none false false).toOption).getD default

/-- Rule `<c1> aa → X` of the claim C8 engine. -/
def rC8a : TransliterationRule :=
  { production := "X", prev_classes := some ["c1"], prev_tokens := none,
    tokens := ["aa"], next_tokens := none, next_classes := none,
    cost := _cost_of 2 }

/-- Rule `<c2> aa → Y` of the claim C8 engine. -/
def rC8b : TransliterationRule :=
  { rC8a with production := "Y", prev_classes := some ["c2"] }

/-- Rule `<c3> aa → Z` of the claim C8 engine. -/
def rC8c : TransliterationRule :=
  { rC8a with production := "Z", prev_classes := some ["c3"] }

/-- Token map of the claim C8 engine: one token `aa` carrying all three
classes, plus the whitespace token. -/
def tmC8 : List (String × List String) :=
  [("aa", ["c1", "c2", "c3"]), (" ", ["wb"])]

/-- The claim C8 engine, constructed with ambiguity checking enabled: the
three equal-cost rules mutually cover each other's pairwise intersections,
so `check_for_ambiguity` accepts the set (see claim C3: the checker admits
equal-cost coverers). -/
def eC8 : GraphTransliterator :=
  ((mkGraphTransliterator tmC8 [rC8a, rC8b, rC8c] wsStd none false
    true).toOption).getD default

/-- Rule `aa → A` of the claim C6 engines. -/
def rC6 : TransliterationRule :=
  { production := "A", prev_classes := none, prev_tokens := none,
    tokens := ["aa"], next_tokens := none, next_classes := none,
    cost := _cost_of 1 }

/-- Strict claim C6 engine: declared tokens `aa`, `bbb` and the whitespace
token, but only `aa` has a rule, and `ignore_errors` is off. -/
def eC6strict : GraphTransliterator :=
  ((mkGraphTransliterator [("aa", []), ("bbb", []), (" ", ["wb"])] [rC6]
    wsStd none false false).toOption).getD default

/-- The same engine with `ignore_errors` on. -/
def eC6lenient : GraphTransliterator :=
  { eC6strict with ignore_errors := true }

/-- The match graph the claim C6 engines carry (root, one token node for
`aa`, one accepting rule leaf), written out. -/
def gC6 : DirectedGraph :=
  { node := [
      { type := "Start", ordered_children := some [("aa", [1])] },
      { type := "token", token := some "aa",
        ordered_children := some [("__rules__", [2])] },
      { type := "rule", rule_key := some 0, accepting := true,
        ordered_children := some [] }],
    edge := [((0, 1), { token := some "aa", cost := some (_cost_of 1) }),
             ((1, 2), { cost := some (_cost_of 1) })] }

/-- Rule `a → A`, derived cost for one token. -/
def rC4a : TransliterationRule :=
  { production := "A", prev_classes := none, prev_tokens := none,
    tokens := ["a"], next_tokens := none, next_classes := none,
    cost := _cost_of 1 }

/-- Rule `a b → AB`, derived cost for two tokens (cheaper than `rC4a`). -/
def rC4b : TransliterationRule :=
  { production := "AB", prev_classes := none, prev_tokens := none,
    tokens := ["a", "b"], next_tokens := none, next_classes := none,
    cost := _cost_of 2 }

/-- The graph built from the two derived-cost rules sharing the prefix `a`. -/
def gC4 : DirectedGraph := ((_graph_from [rC4b, rC4a]).toOption).getD default

/-! ### Claim C2 -/

/-- C2.  The claim describes `_match_constraints`: a rule leaf is recorded as
a match iff the constraints on its incident edge all pass, with
`prev_tokens`/`prev_classes` checked against the window left of the consumed
segment.  The code cannot do this: `_graph_from` (initialize.py line 172) no
longer stores the `"rule"` entry on rule nodes — it is commented out — while
`_match_constraints` (core.py lines 249 and 285) still evaluates
`curr_node["rule"].tokens` to locate that window, so any rule with a
`prev_tokens` or `prev_classes` constraint raises `KeyError` as soon as its
leaf is examined.  At the engine `{a: [c1], ' ': [wb]}` with the single rule
`<wb> a` and tokens `[' ', 'a', ' ']`, the claim expects the rule to match at
position 1 (the window `[' ']` is of class `wb`, as the third conjunct
verifies on the very check the claim prescribes), but `match_at` raises
instead.  The repository's own test suite
(`test_GraphTransliterator_transliterate`, which asserts
`gt.transliterate("ca") == "CA"` and friends over prev-class rules) expects
the claimed behavior, so the claim is right and the code is broken. -/
theorem claim_C2_prev_constraint_match_raises_keyerror :
    (_graph_from [rC2]).toOption.isSome = true
    ∧ match_at gC2 tmC2 [" ", "a", " "] 1 100 = some (.error .keyRule)
    ∧ match_at_all gC2 tmC2 [" ", "a", " "] 1 100 = some (.error .keyRule)
    ∧ _match_tokens tmC2 [" ", "a", " "] 0 ["wb"] true false true = .ok true := by
  refine ⟨by decide, by decide, by decide, by decide⟩

/-! ### Claim C3 -/

/-- C3.  The claim states `check_for_ambiguity` raises iff some equal-cost
pair's slot-vector intersection is non-empty and not covered by a
*strictly cheaper* rule's vector, with *all* pairs examined.  The code
differs twice: `covered_by_less_costly` (core.py line 1395 /  ambiguity.py
line 125) skips only rules of cost *strictly greater* than the pair's, so
*equal-cost* rules are admitted as coverers, and the inner pair loop
(core.py line 1387) `break`s at the first pair with empty intersection,
skipping the remaining pairs for that `i`.  Configuration: one token `a` of
classes `c1 c2 c3` and the three equal-cost rules `<c1> a`, `<c2> a`,
`<c3> a`.  Every pair overlaps on the vector `[{a}, {a}]` (conjunct 3) and
no rule is strictly cheaper than any other (conjunct 4), so under the claim
the error must be raised; the code raises nothing (conjunct 5), because each
pair's intersection is covered by the third, equal-cost, rule.  This
contradicts the function's own docstring ("checks if a *less costly* rule
would match those particular sequences.  If not, there is ambiguity"). -/
theorem claim_C3_equal_cost_cover_suppresses_ambiguity :
    rC3a.cost = rC3b.cost
    ∧ rC3b.cost = rC3c.cost
    ∧ full_intersection (ambiguityMatrix tmC3 rulesC3) (ambiguityWidth rulesC3) 0 1
        = some [["a"], ["a"]]
    ∧ rulesC3.filter (fun r => decide (r.cost < rC3a.cost)) = []
    ∧ check_for_ambiguity tmC3 rulesC3 = .ok ()
    ∧ check_for_ambiguity tmC3 [rC3a, rC3b] = .error .ambiguousRules := by
  refine ⟨by decide, by decide, by decide, by decide, by decide, by decide⟩

/-! ### Claim C1 -/

/-- C1, counterexample.  The claim says `match_at(pos, tokens)` returns the
*lowest-cost* rule among the `match_at(pos, tokens, match_all=True)` results.
In the compiled engine with rules `a b (z w)` (index 0, cost for 4 tokens),
`a (b <C>)` (index 1, cost for 3 tokens) and `a b` (index 2, cost for 2
tokens), matching `[' ', a, b, m, ' ']` at position 1: the branch below token
node `a → b` is explored first (its edge carries rule 0's minimal cost);
rule 0's `next_tokens` constraint fails, its

sibling leaf rule 2 matches and is returned at once — yet match-all also
finds rule 1, which is strictly cheaper than rule 2.  So single-match
returned a rule that is not the lowest-cost member of the match-all list. -/
theorem claim_C1_counterexample :
    (_graph_from rulesC1).toOption.isSome = true
    ∧ match_at gC1 tmC1 toksC1 1 100 = some (.ok (some 2))
    ∧ match_at_all gC1 tmC1 toksC1 1 100 = some (.ok [2, 1])
    ∧ rulesC1.get? 1 = some rC1b
    ∧ rulesC1.get? 2 = some rC1c
    ∧ rC1b.cost < rC1c.cost := by
  refine ⟨by decide, by decide, by decide, by decide, by decide, by decide⟩

/-- Helper for claim C1: the two `match_at` stack loops perform the identical
traversal until the first recorded match, so whenever the match-all loop
terminates successfully, the single-match loop terminates within the same
fuel and returns the first element appended after the accumulator. -/
theorem matchLoop_single_head (g : DirectedGraph) (tm : List (String × List String))
    (tokens : List String) :
    ∀ fuel stack acc l,
      matchAllLoop g tm tokens fuel stack acc = some (.ok l) →
      ∃ l2, l = acc ++ l2 ∧ matchSingleLoop g tm tokens fuel stack = some (.ok l2.head?) := by
  intro fuel
  induction fuel with
  | zero => intro stack acc l h; simp [matchAllLoop] at h
  | succ n ih =>
    intro stack acc l h
    cases stack with
    | nil =>
      simp only [matchAllLoop, Option.some.injEq] at h
      cases h
      exact ⟨[], by simp, by simp [matchSingleLoop]⟩
    | cons f rest =>
      simp only [matchAllLoop] at h
      simp only [matchSingleLoop]
      cases hs : matchStep g tm tokens f with
      | error e => rw [hs] at h; cases h
      | ok r =>
        rw [hs] at h
        cases r with
        | inl rk =>
          dsimp only at h ⊢
          obtain ⟨l2, hl, _⟩ := ih rest (acc ++ [rk]) l h
          refine ⟨rk :: l2, by simp [hl], by simp⟩
        | inr fs =>
          dsimp only at h ⊢
          exact ih (fs ++ rest) acc l h

/-- C1, amended.  As stated the claim is false (see the counterexample): the
cost-ordering of siblings uses the minimal *descendant* cost of each branch,
so the first match found in a cheap branch can be costlier than a match in a
sibling branch.  What does hold, and is the load-bearing relation between the
two modes, is: `match_at(pos, tokens, match_all=False)` returns exactly the
*first* element of the `match_at(pos, tokens, match_all=True)` list (the two
modes share the identical traversal up to the first recorded match), and it
returns absence (`None`) exactly when the match-all list is empty. -/
theorem claim_C1_single_match_is_head_of_match_all
    (g : DirectedGraph) (tm : List (String × List String)) (tokens : List String)
    (pos fuel : Nat) (l : List Nat)
    (h : match_at_all g tm tokens pos fuel = some (.ok l)) :
    match_at g tm tokens pos fuel = some (.ok l.head?) := by
  unfold match_at_all at h
  unfold match_at
  cases hc : appendChildren g tokens 0 pos with
  | error e => rw [hc] at h; cases h
  | ok fs =>
    rw [hc] at h
    obtain ⟨l2, hl, hs⟩ := matchLoop_single_head g tm tokens fuel fs [] l h
    simpa [hl] using hs

/-- Witness for claim C1's theorem, at the counterexample engine: the
match-all run returns `[2, 1]`, and the theorem yields that single-match
returns its head `some 2`. -/
theorem claim_C1_witness :
    match_at_all gC1 tmC1 toksC1 1 100 = some (.ok [2, 1])
    ∧ match_at gC1 tmC1 toksC1 1 100 = some (.ok (([2, 1] : List Nat).head?)) :=
  ⟨by decide,
   claim_C1_single_match_is_head_of_match_all gC1 tmC1 toksC1 1 100 [2, 1] (by decide)⟩

/-! ### Claim C4 (counterexample) -/

/-- C4, counterexample.  The claim says the edge cost starts at a `+∞`
"uninitialized" sentinel and each traversal lowers it to
`min(currentEdgeCost, rule.cost)`, for every rule list including explicitly
supplied costs.  The code instead reads the current cost with default `1`
(`curr_edge.get("cost", 1)`, initialize.py line 165) and stores a cost only
when the rule's cost is strictly below it; with the single rule of explicit
cost `2` the edge into the token node never receives a `"cost"` entry at
all, and the second phase of `_graph_from` then raises `KeyError` on
`graph.edge[node_key][x]["cost"]` (line 226) instead of producing a graph
whose edge carries the minimum cost `2`. -/
theorem claim_C4_counterexample :
    rC4.cost = 2 ∧ _graph_from [rC4] = .error .keyCost := by
  refine ⟨by decide, by decide⟩

/-! ### Claim C9 -/

/-- In-range Python accesses succeed. -/
theorem pyGet_isSome (l : List String) (i : Int) (h0 : 0 ≤ i) (h1 : i < (l.length : Int)) :
    (pyGet l i).isSome = true := by
  have hn : ¬ i < 0 := not_lt.mpr h0
  simp only [pyGet, hn, if_false, if_pos h0]
  have ht : i.toNat < l.length := by omega
  rw [List.get?_eq_get ht]
  rfl

/-- `matchTokensGo` performs no out-of-range token access when the window
`[start_i, start_i + i + |c_value|)` lies inside the list. -/
theorem matchTokensGo_no_keyIndex (tm : List (String × List String)) (tokens : List String)
    (start_i : Int) (bc : Bool) :
    ∀ cv (i : Nat), 0 ≤ start_i →
      start_i + (i + cv.length) ≤ (tokens.length : Int) →
      matchTokensGo tm tokens start_i bc i cv ≠ .error .keyIndex := by
  intro cv
  induction cv with
  | nil => intro i _ _ h; simp [matchTokensGo] at h
  | cons c cs ih =>
    intro i h0 hlen
    simp only [matchTokensGo]
    have hidx0 : (0 : Int) ≤ start_i + i := by omega
    have hidx1 : start_i + i < (tokens.length : Int) := by
      simp only [List.length_cons] at hlen
      push_cast at hlen ⊢
      omega
    have hs := pyGet_isSome tokens (start_i + i) hidx0 hidx1
    cases hg : pyGet tokens (start_i + i) with
    | none => rw [hg] at hs; simp at hs
    | some tok =>
      dsimp only
      have hrec := ih (i + 1) h0 (by
        simp only [List.length_cons] at hlen
        push_cast at hlen ⊢
        omega)
      cases bc with
      | true =>
        simp only [if_true]
        cases tm.lookup tok with
        | none => intro hc; cases hc
        | some classes =>
          dsimp only
          by_cases hm : classes.contains c = true
          · rw [if_pos hm]; exact hrec
          · rw [if_neg hm]; intro hc; cases hc
      | false =>
        simp only [Bool.false_eq_true, if_false]
        by_cases hm : tok = c
        · rw [if_pos hm]; exact hrec
        · rw [if_neg hm]; intro hc; cases hc

/-- `_match_tokens` never raises an index error in a previous-context check
whose window ends inside the list. -/
theorem match_tokens_prev_no_keyIndex (tm : List (String × List String))
    (tokens : List String) (start_i : Int) (cv : List String) (bc : Bool)
    (h : start_i + cv.length ≤ (tokens.length : Int)) :
    _match_tokens tm tokens start_i cv true false bc ≠ .error .keyIndex := by
  unfold _match_tokens
  split
  · intro hc; cases hc
  · split
    · intro hc; cases hc
    · rename_i hng _
      have h0 : (0 : Int) ≤ start_i := by
        by_contra hq
        exact hng ⟨rfl, by omega⟩
      exact matchTokensGo_no_keyIndex tm tokens start_i bc cv 0 h0 (by push_cast; omega)

/-- `_match_tokens` never raises an index error in a next-context check with
a non-negative window start. -/
theorem match_tokens_next_no_keyIndex (tm : List (String × List String))
    (tokens : List String) (start_i : Int) (cv : List String) (bc : Bool)
    (h0 : 0 ≤ start_i) :
    _match_tokens tm tokens start_i cv false true bc ≠ .error .keyIndex := by
  unfold _match_tokens
  split
  · intro hc; cases hc
  · split
    · intro hc; cases hc
    · rename_i hov
      have hle : start_i + cv.length ≤ (tokens.length : Int) := by
        by_contra hq
        exact hov ⟨rfl, by omega⟩
      exact matchTokensGo_no_keyIndex tm tokens start_i bc cv 0 h0 (by push_cast; omega)

/-- `_match_constraints` performs only in-range token accesses when
`token_i < len(tokens)`: the previous windows end at or before `token_i` and
the next windows are bounds-checked with a non-negative start. -/
theorem match_constraints_no_keyIndex (tm : List (String × List String))
    (tokens : List String) (ed : EdgeData) (curr : GraphNode) (token_i : Nat)
    (hti : token_i < tokens.length) :
    _match_constraints tm tokens ed curr token_i ≠ .error .keyIndex := by
  unfold _match_constraints
  cases ed.constraints with
  | none => intro hc; cases hc
  | some cs =>
    dsimp only
    have hpc : prevClassesCheck tm tokens cs curr token_i ≠ .error .keyIndex := by
      unfold prevClassesCheck
      cases cs.prev_classes with
      | none => intro hc; cases hc
      | some cv =>
        dsimp only
        cases curr.rule with
        | none => intro hc; cases hc
        | some rule =>
          dsimp only
          apply match_tokens_prev_no_keyIndex
          have hnn : (0:Int) ≤ (match cs.prev_tokens with
              | some (p :: ps) => ((p :: ps).length : Int)
              | _ => 0) := by
            cases hp : cs.prev_tokens with
            | none => simp
            | some l =>
              cases l with
              | nil => simp
              | cons a as => simp only [List.length_cons]; push_cast; omega
          omega
    have hpt : prevTokensCheck tm tokens cs curr token_i ≠ .error .keyIndex := by
      unfold prevTokensCheck
      cases cs.prev_tokens with
      | none => intro hc; cases hc
      | some cv =>
        dsimp only
        cases curr.rule with
        | none => intro hc; cases hc
        | some rule =>
          dsimp only
          apply match_tokens_prev_no_keyIndex
          omega
    have hnt : nextTokensCheck tm tokens cs token_i ≠ .error .keyIndex := by
      unfold nextTokensCheck
      cases cs.next_tokens with
      | none => intro hc; cases hc
      | some cv =>
        dsimp only
        apply match_tokens_next_no_keyIndex
        omega
    have hnc : nextClassesCheck tm tokens cs token_i ≠ .error .keyIndex := by
      unfold nextClassesCheck
      cases cs.next_classes with
      | none => intro hc; cases hc
      | some cv =>
        dsimp only
        apply match_tokens_next_no_keyIndex
        have hnn : (0:Int) ≤ (match cs.next_tokens with
            | some (p :: ps) => ((p :: ps).length : Int)
            | _ => 0) := by
          cases hp : cs.next_tokens with
          | none => simp
          | some l =>
            cases l with
            | nil => simp
            | cons a as => simp only [List.length_cons]; push_cast; omega
        omega
    cases h1 : prevClassesCheck tm tokens cs curr token_i with
    | error e =>
      intro hc
      cases hc
      exact hpc h1
    | ok b1 =>
      cases b1 with
      | false => intro hc; cases hc
      | true =>
        cases h2 : prevTokensCheck tm tokens cs curr token_i with
        | error e => intro hc; cases hc; exact hpt h2
        | ok b2 =>
          cases b2 with
          | false => intro hc; cases hc
          | true =>
            cases h3 : nextTokensCheck tm tokens cs token_i with
            | error e => intro hc; cases hc; exact hnt h3
            | ok b3 =>
              cases b3 with
              | false => intro hc; cases hc
              | true =>
                cases h4 : nextClassesCheck tm tokens cs token_i with
                | error e => intro hc; cases hc; exact hnc h4
                | ok b4 => cases b4 <;> (intro hc; cases hc)

/-- `matchTokensGo` never reports a failed assertion (its only failures are
`keyIndex` and `keyClasses`). -/
theorem matchTokensGo_no_assert (tm : List (String × List String)) (tokens : List String)
    (start_i : Int) (bc : Bool) :
    ∀ cv (i : Nat), matchTokensGo tm tokens start_i bc i cv ≠ .error .assertBound := by
  intro cv
  induction cv with
  | nil => intro i hc; cases hc
  | cons c cs ih =>
    intro i
    simp only [matchTokensGo]
    cases pyGet tokens (start_i + i) with
    | none => intro hc; cases hc
    | some tok =>
      dsimp only
      cases bc with
      | true =>
        simp only [if_true]
        cases tm.lookup tok with
        | none => intro hc; cases hc
        | some classes =>
          dsimp only
          by_cases hm : classes.contains c = true
          · rw [if_pos hm]; exact ih (i + 1)
          · rw [if_neg hm]; intro hc; cases hc
      | false =>
        simp only [Bool.false_eq_true, if_false]
        by_cases hm : tok = c
        · rw [if_pos hm]; exact ih (i + 1)
        · rw [if_neg hm]; intro hc; cases hc

/-- `_match_tokens` never reports a failed assertion. -/
theorem match_tokens_no_assert (tm : List (String × List String)) (tokens : List String)
    (start_i : Int) (cv : List String) (p n bc : Bool) :
    _match_tokens tm tokens start_i cv p n bc ≠ .error .assertBound := by
  unfold _match_tokens
  split
  · intro hc; cases hc
  · split
    · intro hc; cases hc
    · exact matchTokensGo_no_assert tm tokens start_i bc cv 0

/-- `_match_constraints` never reports a failed assertion. -/
theorem match_constraints_no_assert (tm : List (String × List String))
    (tokens : List String) (ed : EdgeData) (curr : GraphNode) (token_i : Nat) :
    _match_constraints tm tokens ed curr token_i ≠ .error .assertBound := by
  unfold _match_constraints
  cases hcs : ed.constraints with
  | none => intro hc; cases hc
  | some cs =>
    dsimp only
    cases h1 : prevClassesCheck tm tokens cs curr token_i with
    | error e =>
      intro hc
      cases hc
      revert h1
      unfold prevClassesCheck
      cases cs.prev_classes with
      | none => intro hc; cases hc
      | some cv =>
        dsimp only
        cases curr.rule with
        | none => intro hc; cases hc
        | some rule => exact match_tokens_no_assert tm tokens _ cv true false true
    | ok b1 =>
      cases b1 with
      | false => intro hc; cases hc
      | true =>
        dsimp only
        cases h2 : prevTokensCheck tm tokens cs curr token_i with
        | error e =>
          intro hc
          cases hc
          revert h2
          unfold prevTokensCheck
          cases cs.prev_tokens with
          | none => intro hc; cases hc
          | some cv =>
            dsimp only
            cases curr.rule with
            | none => intro hc; cases hc
            | some rule => exact match_tokens_no_assert tm tokens _ cv true false false
        | ok b2 =>
          cases b2 with
          | false => intro hc; cases hc
          | true =>
            dsimp only
            cases h3 : nextTokensCheck tm tokens cs token_i with
            | error e =>
              intro hc
              cases hc
              revert h3
              unfold nextTokensCheck
              cases cs.next_tokens with
              | none => intro hc; cases hc
              | some cv => exact match_tokens_no_assert tm tokens _ cv false true false
            | ok b3 =>
              cases b3 with
              | false => intro hc; cases hc
              | true =>
                dsimp only
                cases h4 : nextClassesCheck tm tokens cs token_i with
                | error e =>
                  intro hc
                  cases hc
                  revert h4
                  unfold nextClassesCheck
                  cases cs.next_classes with
                  | none => intro hc; cases hc
                  | some cv => exact match_tokens_no_assert tm tokens _ cv false true true
                | ok b4 => cases b4 <;> (intro hc; cases hc)

/-- `_append_children` never reports a failed assertion. -/
theorem appendChildren_no_assert (g : DirectedGraph) (tokens : List String)
    (node_key token_i : Nat) :
    appendChildren g tokens node_key token_i ≠ .error .assertBound := by
  unfold appendChildren
  repeat' split
  all_goals intro hc
  all_goals simp at hc

/-- `_append_children` performs no out-of-range token access when
`token_i < len(tokens)`. -/
theorem appendChildren_no_keyIndex (g : DirectedGraph) (tokens : List String)
    (node_key token_i : Nat) (hti : token_i < tokens.length) :
    appendChildren g tokens node_key token_i ≠ .error .keyIndex := by
  have hsome : tokens.get? token_i = some (tokens.get ⟨token_i, hti⟩) := List.get?_eq_get hti
  unfold appendChildren
  repeat' split
  all_goals intro hc
  all_goals simp_all

/-- Every frame produced by `_append_children` carries the token index it
was called with. -/
theorem appendChildren_frames (g : DirectedGraph) (tokens : List String)
    (node_key token_i : Nat) (fs : List (Nat × Nat × Nat))
    (h : appendChildren g tokens node_key token_i = .ok fs) :
    ∀ fr ∈ fs, fr.2.2 = token_i := by
  unfold appendChildren at h
  repeat' split at h
  all_goals first
    | (cases h
       intro fr hm
       simp only [List.mem_map] at hm
       obtain ⟨k, hk1, hk⟩ := hm
       rw [← hk])
    | (cases h; intro fr hm; cases hm)
    | cases h

/-- A popped frame with an in-range token index passes the bounds assertion,
performs only in-range token accesses, and pushes only frames with in-range
(clamped) indices. -/
theorem matchStep_safe (g : DirectedGraph) (tm : List (String × List String))
    (tokens : List String) (f : Nat × Nat × Nat) (hf : f.2.2 < tokens.length) :
    matchStep g tm tokens f ≠ .error .assertBound
    ∧ matchStep g tm tokens f ≠ .error .keyIndex
    ∧ ∀ fs, matchStep g tm tokens f = .ok (.inr fs) →
        ∀ fr ∈ fs, fr.2.2 < tokens.length := by
  have hadv : (if f.2.2 < tokens.length - 1 then f.2.2 + 1 else f.2.2) < tokens.length := by
    split <;> omega
  have hAdv1 : advanceFrames g tokens f.1 f.2.2 ≠ .error .assertBound :=
    appendChildren_no_assert g tokens f.1 _
  have hAdv2 : advanceFrames g tokens f.1 f.2.2 ≠ .error .keyIndex :=
    appendChildren_no_keyIndex g tokens f.1 _ hadv
  have hAdv3 : ∀ fs, advanceFrames g tokens f.1 f.2.2 = .ok fs →
      ∀ fr ∈ fs, fr.2.2 < tokens.length := by
    intro fs h fr hm
    rw [appendChildren_frames g tokens f.1 _ fs h fr hm]
    exact hadv
  unfold matchStep
  rw [if_pos hf]
  cases getNode? g f.1 with
  | none =>
    refine ⟨?_, ?_, ?_⟩
    · intro hc; cases hc
    · intro hc; cases hc
    · intro fs hc; cases hc
  | some curr =>
    dsimp only
    cases getEdge? g f.2.1 f.1 with
    | none =>
      refine ⟨?_, ?_, ?_⟩
      · intro hc; cases hc
      · intro hc; cases hc
      · intro fs hc; cases hc
    | some ed =>
      dsimp only
      by_cases hacc : curr.accepting = true
      · rw [if_pos hacc]
        cases hm : _match_constraints tm tokens ed curr f.2.2 with
        | error e =>
          refine ⟨?_, ?_, ?_⟩
          · intro hc
            cases hc
            exact match_constraints_no_assert tm tokens ed curr f.2.2 hm
          · intro hc
            cases hc
            exact match_constraints_no_keyIndex tm tokens ed curr f.2.2 hf hm
          · intro fs hc; cases hc
        | ok b =>
          cases b with
          | true =>
            dsimp only
            cases curr.rule_key with
            | none =>
              refine ⟨?_, ?_, ?_⟩
              · intro hc; cases hc
              · intro hc; cases hc
              · intro fs hc; cases hc
            | some rk =>
              refine ⟨?_, ?_, ?_⟩
              · intro hc; cases hc
              · intro hc; cases hc
              · intro fs hc; cases hc
          | false =>
            dsimp only
            cases ha : advanceFrames g tokens f.1 f.2.2 with
            | error e =>
              refine ⟨?_, ?_, ?_⟩
              · intro hc
                simp only [ha, Except.map] at hc
                cases hc
                exact hAdv1 ha
              · intro hc
                simp only [ha, Except.map] at hc
                cases hc
                exact hAdv2 ha
              · intro fs hc
                simp only [ha, Except.map] at hc
                cases hc
            | ok fs0 =>
              refine ⟨?_, ?_, ?_⟩
              · simp [ha, Except.map]
              · simp [ha, Except.map]
              · intro fs hc
                simp only [ha, Except.map, Except.ok.injEq, Sum.inr.injEq] at hc
                cases hc
                exact hAdv3 fs0 ha
      · rw [if_neg hacc]
        cases ha : advanceFrames g tokens f.1 f.2.2 with
        | error e =>
          refine ⟨?_, ?_, ?_⟩
          · intro hc
            simp only [ha, Except.map] at hc
            cases hc
            exact hAdv1 ha
          · intro hc
            simp only [ha, Except.map] at hc
            cases hc
            exact hAdv2 ha
          · intro fs hc
            simp only [ha, Except.map] at hc
            cases hc
        | ok fs0 =>
          refine ⟨?_, ?_, ?_⟩
          · simp [ha, Except.map]
          · simp [ha, Except.map]
          · intro fs hc
            simp only [ha, Except.map, Except.ok.injEq, Sum.inr.injEq] at hc
            cases hc
            exact hAdv3 fs0 ha

/-- The match-all stack loop never fails its bounds assertion or accesses a
token out of range while every stacked frame has an in-range index. -/
theorem matchAllLoop_safe (g : DirectedGraph) (tm : List (String × List String))
    (tokens : List String) :
    ∀ fuel stack acc, (∀ fr ∈ stack, fr.2.2 < tokens.length) →
      matchAllLoop g tm tokens fuel stack acc ≠ some (.error .assertBound)
      ∧ matchAllLoop g tm tokens fuel stack acc ≠ some (.error .keyIndex) := by
  intro fuel
  induction fuel with
  | zero => intro stack acc _; simp [matchAllLoop]
  | succ n ih =>
    intro stack acc hinv
    cases stack with
    | nil => simp [matchAllLoop]
    | cons f rest =>
      simp only [matchAllLoop]
      have hf : f.2.2 < tokens.length := hinv f (by simp)
      have hstep := matchStep_safe g tm tokens f hf
      cases hs : matchStep g tm tokens f with
      | error e =>
        constructor
        · intro hc
          cases hc
          exact hstep.1 hs
        · intro hc
          cases hc
          exact hstep.2.1 hs
      | ok r =>
        cases r with
        | inl rk =>
          dsimp only
          exact ih rest (acc ++ [rk]) (fun fr hm => hinv fr (by simp [hm]))
        | inr fs =>
          dsimp only
          refine ih (fs ++ rest) acc ?_
          intro fr hm
          rcases List.mem_append.mp hm with hm1 | hm2
          · exact hstep.2.2 fs hs fr hm1
          · exact hinv fr (by simp [hm2])

/-- The single-match stack loop never fails its bounds assertion or accesses
a token out of range while every stacked frame has an in-range index. -/
theorem matchSingleLoop_safe (g : DirectedGraph) (tm : List (String × List String))
    (tokens : List String) :
    ∀ fuel stack, (∀ fr ∈ stack, fr.2.2 < tokens.length) →
      matchSingleLoop g tm tokens fuel stack ≠ some (.error .assertBound)
      ∧ matchSingleLoop g tm tokens fuel stack ≠ some (.error .keyIndex) := by
  intro fuel
  induction fuel with
  | zero => intro stack _; simp [matchSingleLoop]
  | succ n ih =>
    intro stack hinv
    cases stack with
    | nil => simp [matchSingleLoop]
    | cons f rest =>
      simp only [matchSingleLoop]
      have hf : f.2.2 < tokens.length := hinv f (by simp)
      have hstep := matchStep_safe g tm tokens f hf
      cases hs : matchStep g tm tokens f with
      | error e =>
        constructor
        · intro hc
          cases hc
          exact hstep.1 hs
        · intro hc
          cases hc
          exact hstep.2.1 hs
      | ok r =>
        cases r with
        | inl rk => simp
        | inr fs =>
          dsimp only
          refine ih (fs ++ rest) ?_
          intro fr hm
          rcases List.mem_append.mp hm with hm1 | hm2
          · exact hstep.2.2 fs hs fr hm1
          · exact hinv fr (by simp [hm2])

/-! ### Claim C9 -/

/-- C9.  For a whitespace-bounded token list (length at least two) and a
start position strictly inside it, every frame popped by `match_at` carries a
token index below `len(tokens)`: the seed frames carry the start position,
and the advance step clamps the index at `len(tokens) - 1` (core.py lines
441-442), so the `assert token_i < len(tokens)` at line 425 never fails and
every access `tokens[...]` inside `match_at` — in `_append_children` and in
the `_match_tokens` window checks — is in range, in both single-match and
match-all mode. -/
theorem claim_C9_match_at_indices_in_range (g : DirectedGraph)
    (tm : List (String × List String)) (tokens : List String) (pos fuel : Nat)
    (hlen : 2 ≤ tokens.length) (_hpos0 : 0 < pos) (hpos : pos < tokens.length - 1) :
    match_at g tm tokens pos fuel ≠ some (.error .assertBound)
    ∧ match_at g tm tokens pos fuel ≠ some (.error .keyIndex)
    ∧ match_at_all g tm tokens pos fuel ≠ some (.error .assertBound)
    ∧ match_at_all g tm tokens pos fuel ≠ some (.error .keyIndex) := by
  have hposlen : pos < tokens.length := by omega
  unfold match_at match_at_all
  cases hc : appendChildren g tokens 0 pos with
  | error e =>
    have h1 : e ≠ .assertBound := by
      intro he
      exact appendChildren_no_assert g tokens 0 pos (he ▸ hc)
    have h2 : e ≠ .keyIndex := by
      intro he
      exact appendChildren_no_keyIndex g tokens 0 pos hposlen (he ▸ hc)
    refine ⟨?_, ?_, ?_, ?_⟩ <;> (intro hq; cases hq; first | exact h1 rfl | exact h2 rfl)
  | ok fs =>
    have hinv : ∀ fr ∈ fs, fr.2.2 < tokens.length := by
      intro fr hm
      rw [appendChildren_frames g tokens 0 pos fs hc fr hm]
      exact hposlen
    have hs := matchSingleLoop_safe g tm tokens fuel fs hinv
    have ha := matchAllLoop_safe g tm tokens fuel fs [] hinv
    exact ⟨hs.1, hs.2, ha.1, ha.2⟩

/-- Witness for claim C9's theorem at a concrete engine: the counterexample
engine of claim C1, its five-token list, position 1 and fuel 5. -/
theorem claim_C9_witness :
    match_at gC1 tmC1 toksC1 1 5 ≠ some (.error .assertBound)
    ∧ match_at gC1 tmC1 toksC1 1 5 ≠ some (.error .keyIndex)
    ∧ match_at_all gC1 tmC1 toksC1 1 5 ≠ some (.error .assertBound)
    ∧ match_at_all gC1 tmC1 toksC1 1 5 ≠ some (.error .keyIndex) :=
  claim_C9_match_at_indices_in_range gC1 tmC1 toksC1 1 5
    (by decide) (by decide) (by decide)

/-! ### Claim C5 -/

/-- Membership in a stable insertion. -/
theorem mem_insertStable {α : Type} (le : α → α → Bool) (x y : α) :
    ∀ l : List α, y ∈ insertStable le x l ↔ y = x ∨ y ∈ l := by
  intro l
  induction l with
  | nil => simp [insertStable]
  | cons z zs ih =>
    simp only [insertStable]
    by_cases h : le z x = true
    · rw [if_pos h]
      simp only [List.mem_cons, ih]
      tauto
    · rw [if_neg h]
      simp only [List.mem_cons]

/-- Membership in `pySort` is membership in the input. -/
theorem mem_pySort {α : Type} (le : α → α → Bool) (y : α) (xs : List α) :
    y ∈ pySort le xs ↔ y ∈ xs := by
  have hgen : ∀ (l acc : List α), y ∈ l.foldl (fun a x => insertStable le x a) acc
      ↔ y ∈ acc ∨ y ∈ l := by
    intro l
    induction l with
    | nil => simp
    | cons z zs ih =>
      intro acc
      simp only [List.foldl_cons, ih, mem_insertStable, List.mem_cons]
      tauto
  simpa [pySort] using hgen xs []

/-- A stable insertion into a `le`-sorted list is `le`-sorted, given a total
transitive comparison. -/
theorem pairwise_insertStable {α : Type} (le : α → α → Bool)
    (htot : ∀ a b, le a b = true ∨ le b a = true)
    (htrans : ∀ a b c, le a b = true → le b c = true → le a c = true)
    (x : α) :
    ∀ l : List α, l.Pairwise (fun a b => le a b = true) →
      (insertStable le x l).Pairwise (fun a b => le a b = true) := by
  intro l
  induction l with
  | nil => intro _; simp [insertStable]
  | cons z zs ih =>
    intro hp
    rw [List.pairwise_cons] at hp
    simp only [insertStable]
    by_cases h : le z x = true
    · rw [if_pos h]
      rw [List.pairwise_cons]
      constructor
      · intro b hb
        rcases (mem_insertStable le x b zs).mp hb with hbx | hbz
        · rw [hbx]; exact h
        · exact hp.1 b hbz
      · exact ih hp.2
    · rw [if_neg h]
      have hxz : le x z = true := by
        rcases htot x z with hh | hh
        · exact hh
        · exact absurd hh h
      rw [List.pairwise_cons]
      refine ⟨?_, List.pairwise_cons.mpr hp⟩
      intro b hb
      rcases List.mem_cons.mp hb with hbz | hbzs
      · rw [hbz]; exact hxz
      · exact htrans x z b hxz (hp.1 b hbzs)

/-- `pySort` produces a `le`-sorted list for a total transitive comparison. -/
theorem pairwise_pySort {α : Type} (le : α → α → Bool)
    (htot : ∀ a b, le a b = true ∨ le b a = true)
    (htrans : ∀ a b c, le a b = true → le b c = true → le a c = true)
    (xs : List α) :
    (pySort le xs).Pairwise (fun a b => le a b = true) := by
  have hgen : ∀ (l acc : List α), acc.Pairwise (fun a b => le a b = true) →
      (l.foldl (fun a x => insertStable le x a) acc).Pairwise (fun a b => le a b = true) := by
    intro l
    induction l with
    | nil => intro acc h; simpa
    | cons z zs ih =>
      intro acc h
      simp only [List.foldl_cons]
      exact ih _ (pairwise_insertStable le htot htrans z acc h)
  exact hgen xs [] (by simp)

/-- Unfolding of the tokenizer comparison. -/
theorem tokenizerLE_iff (a b : String) :
    tokenizerLE a b = true ↔ (b.length < a.length ∨ (b.length = a.length ∧ ¬ a < b)) := by
  simp [tokenizerLE]

/-- The tokenizer comparison is total. -/
theorem tokenizerLE_total (a b : String) : tokenizerLE a b = true ∨ tokenizerLE b a = true := by
  rw [tokenizerLE_iff, tokenizerLE_iff]
  rcases Nat.lt_trichotomy a.length b.length with h | h | h
  · exact Or.inr (Or.inl h)
  · rcases lt_or_le a b with hl | hl
    · exact Or.inr (Or.inr ⟨h, not_lt.mpr (le_of_lt hl)⟩)
    · exact Or.inl (Or.inr ⟨h.symm, not_lt.mpr hl⟩)
  · exact Or.inl (Or.inl h)

/-- The tokenizer comparison is transitive. -/
theorem tokenizerLE_trans (a b c : String) (h1 : tokenizerLE a b = true)
    (h2 : tokenizerLE b c = true) : tokenizerLE a c = true := by
  rw [tokenizerLE_iff] at h1 h2 ⊢
  rcases h1 with h1 | ⟨h1e, h1s⟩
  · rcases h2 with h2 | ⟨h2e, _⟩
    · exact Or.inl (h2.trans h1)
    · exact Or.inl (h2e ▸ h1)
  · rcases h2 with h2 | ⟨h2e, h2s⟩
    · exact Or.inl (h1e ▸ h2)
    · exact Or.inr ⟨h2e.trans h1e, not_lt.mpr (le_trans (not_lt.mp h2s) (not_lt.mp h1s))⟩

/-- The selection property of the tokenizer: if the pattern built by
`_tokenizer_pattern_from` matches token `t` at a position, then `t` is a
declared token, it is a prefix of the remaining input there, and it is at
least as long as every declared token matching there (maximal munch). -/
theorem tokMatch_longest (declared : List String) (rest : List Char) (t : String)
    (h : tokMatch (_tokenizer_pattern_from declared) rest = some t) :
    t ∈ declared ∧ t.toList.isPrefixOf rest = true
    ∧ ∀ u ∈ declared, u.toList.isPrefixOf rest = true → u.length ≤ t.length := by
  unfold tokMatch _tokenizer_pattern_from at h
  have hsorted := pairwise_pySort tokenizerLE tokenizerLE_total tokenizerLE_trans declared
  rw [List.find?_eq_some] at h
  obtain ⟨hp, as, bs, hdecomp, hnp⟩ := h
  have hmem : t ∈ pySort tokenizerLE declared := by rw [hdecomp]; simp
  refine ⟨(mem_pySort tokenizerLE t declared).mp hmem, hp, ?_⟩
  intro u hu hup
  have humem : u ∈ pySort tokenizerLE declared := (mem_pySort tokenizerLE u declared).mpr hu
  rw [hdecomp] at humem hsorted
  rcases List.mem_append.mp humem with hin | hin
  · have hfalse := hnp u hin
    rw [Bool.not_eq_true'] at hfalse
    rw [hup] at hfalse
    simp at hfalse
  · rcases List.mem_cons.mp hin with heq | hin2
    · rw [heq]
    · rw [List.pairwise_append] at hsorted
      have := (List.pairwise_cons.mp hsorted.2.1).1 u hin2
      rw [tokenizerLE_iff] at this
      rcases this with hlt | ⟨he, _⟩
      · exact le_of_lt hlt
      · exact le_of_eq he

/-- When the tokenizer pattern has no match, no declared token is a prefix
of the remaining input. -/
theorem tokMatch_none (declared : List String) (rest : List Char)
    (h : tokMatch (_tokenizer_pattern_from declared) rest = none) :
    ∀ u ∈ declared, ¬ u.toList.isPrefixOf rest = true := by
  unfold tokMatch _tokenizer_pattern_from at h
  rw [List.find?_eq_none] at h
  intro u hu
  exact h u ((mem_pySort tokenizerLE u declared).mpr hu)

/-! fixtures for claim C5 -/

/-! ### Claim C5 theorem -/

/-- C5.  The tokenizer always selects the longest declared token matching at
the current scan position: `_tokenizer_pattern_from` sorts the escaped
literal alternatives by `(len, value)` in reverse and `re` alternation takes
the first alternative matching at the position, so the match is a declared
token, a prefix of the remaining input, and maximal in length among the
declared tokens matching there (first two conjuncts, for every declared
token set, input and position); in particular the engine with tokens
`{a, aa, ' '}` tokenizes `"aa"` to `[' ', 'aa', ' ']` — the single token
`aa` between the whitespace sentinels — and never to `[' ', 'a', 'a', ' ']`
(last two conjuncts). -/
theorem claim_C5_maximal_munch :
    (∀ (declared : List String) (rest : List Char) (t : String),
      tokMatch (_tokenizer_pattern_from declared) rest = some t →
        t ∈ declared ∧ t.toList.isPrefixOf rest = true
        ∧ ∀ u ∈ declared, u.toList.isPrefixOf rest = true → u.length ≤ t.length)
    ∧ (∀ (declared : List String) (rest : List Char),
      tokMatch (_tokenizer_pattern_from declared) rest = none →
        ∀ u ∈ declared, ¬ u.toList.isPrefixOf rest = true)
    ∧ tokenize eC5 100 "aa".toList = some (.ok [" ", "aa", " "])
    ∧ tokenize eC5 100 "aa".toList ≠ some (.ok [" ", "a", "a", " "]) := by
  refine ⟨tokMatch_longest, tokMatch_none, by decide, by decide⟩

/-- Witness for claim C5's theorem: its universally quantified conjuncts
applied at the concrete engine — the token matched at the start of input
`"aa"` with declared tokens `{a, aa, ' '}` is `aa`, which the theorem shows
is declared, a prefix, and maximal. -/
theorem claim_C5_witness :
    "aa" ∈ ["a", "aa", " "]
    ∧ "aa".toList.isPrefixOf "aa".toList = true
    ∧ ∀ u ∈ ["a", "aa", " "], u.toList.isPrefixOf "aa".toList = true →
        u.length ≤ "aa".length :=
  claim_C5_maximal_munch.1 ["a", "aa", " "] "aa".toList "aa" (by decide)

/-! ### Claim C7 -/

/-- The scan loop only appends to its accumulator. -/
theorem tokenizeScan_prefix (tm : List (String × List String)) (ws : WhitespaceRules)
    (st : List String) (ig : Bool) :
    ∀ fuel (rest : List Char) prevWs acc r,
      tokenizeScan tm ws st ig fuel rest prevWs acc = some (.ok r) →
      ∃ ext, r = acc ++ ext := by
  intro fuel
  induction fuel with
  | zero => intro rest prevWs acc r h; simp [tokenizeScan] at h
  | succ n ih =>
    intro rest prevWs acc r h
    cases rest with
    | nil =>
      simp only [tokenizeScan, Option.some.injEq] at h
      cases h
      exact ⟨[], by simp⟩
    | cons c cs =>
      simp only [tokenizeScan] at h
      cases hmt : tokMatch st (c :: cs) with
      | some token =>
        rw [hmt] at h
        dsimp only at h
        cases hws : is_whitespace tm ws token with
        | error e => rw [hws] at h; cases h
        | ok b =>
          rw [hws] at h
          cases b with
          | true =>
            dsimp only at h
            by_cases hcond : (prevWs = true ∧ ws.consolidate = true)
            · rw [if_pos hcond] at h
              exact ih _ _ _ _ h
            · rw [if_neg hcond] at h
              obtain ⟨ext, hext⟩ := ih _ _ _ _ h
              exact ⟨token :: ext, by simp [hext]⟩
          | false =>
            dsimp only at h
            obtain ⟨ext, hext⟩ := ih _ _ _ _ h
            exact ⟨token :: ext, by simp [hext]⟩
      | none =>
        rw [hmt] at h
        dsimp only at h
        by_cases hig : ig = true
        · rw [if_pos hig] at h
          exact ih _ _ _ _ h
        · rw [if_neg hig] at h
          cases h

/-- The trailing-whitespace strip never empties a non-empty list and keeps
its last element (the first element of the original order). -/
theorem stripTrailingWsRev_spec (tm : List (String × List String)) (ws : WhitespaceRules) :
    ∀ (R l2 : List String), stripTrailingWsRev tm ws R = .ok l2 →
      R ≠ [] → l2 ≠ [] ∧ l2.getLast? = R.getLast? := by
  intro R
  induction R with
  | nil => intro l2 h _; simp [stripTrailingWsRev] at h; simp_all
  | cons x rest ih =>
    intro l2 h _
    cases rest with
    | nil =>
      simp only [stripTrailingWsRev] at h
      cases h
      exact ⟨by simp, rfl⟩
    | cons y rest2 =>
      simp only [stripTrailingWsRev] at h
      cases hws : is_whitespace tm ws x with
      | error e => rw [hws] at h; cases h
      | ok b =>
        rw [hws] at h
        cases b with
        | true =>
          dsimp only at h
          have := ih l2 h (by simp)
          exact ⟨this.1, this.2.trans (List.getLast?_cons_cons ..).symm⟩
        | false =>
          dsimp only at h
          cases h
          exact ⟨by simp, rfl⟩

/-- C7.  Every successful tokenization — strict or lenient, with or without
consolidation — returns a list that begins and ends with the configured
default whitespace token and hence has length at least two: the scan starts
from `[default]` and only appends, the consolidation strip never removes
the first element (its loop requires `len(tokens) > 1`), and `tokenize`
finally appends one default token and checks `len(tokens) >= 2`. -/
theorem claim_C7_whitespace_sentinels (gt : GraphTransliterator) (fuel : Nat)
    (input : List Char) (res : List String)
    (h : tokenize gt fuel input = some (.ok res)) :
    res.head? = some gt.whitespace.default
    ∧ res.getLast? = some gt.whitespace.default
    ∧ 2 ≤ res.length := by
  unfold tokenize at h
  cases hscan : tokenizeScan gt.tokens gt.whitespace gt.tokenizer_tokens gt.ignore_errors
      fuel input true [gt.whitespace.default] with
  | none => rw [hscan] at h; cases h
  | some r0 =>
    rw [hscan] at h
    cases r0 with
    | error e => cases h
    | ok toks =>
      dsimp only at h
      obtain ⟨ext, hext⟩ := tokenizeScan_prefix gt.tokens gt.whitespace gt.tokenizer_tokens
        gt.ignore_errors fuel input true [gt.whitespace.default] toks hscan
      have htoksne : toks ≠ [] := by rw [hext]; simp
      have htokshead : toks.head? = some gt.whitespace.default := by rw [hext]; simp
      have hmain : ∀ toks2, (if gt.whitespace.consolidate = true
            then stripTrailingWs gt.tokens gt.whitespace toks
            else Except.ok toks) = .ok toks2 →
          toks2 ≠ [] ∧ toks2.head? = some gt.whitespace.default := by
        intro toks2 h2
        by_cases hcons : gt.whitespace.consolidate = true
        · rw [if_pos hcons] at h2
          unfold stripTrailingWs at h2
          cases hrev : stripTrailingWsRev gt.tokens gt.whitespace toks.reverse with
          | error e => rw [hrev] at h2; cases h2
          | ok l2 =>
            rw [hrev] at h2
            simp only [Except.map, Except.ok.injEq] at h2
            have hsp := stripTrailingWsRev_spec gt.tokens gt.whitespace toks.reverse l2 hrev
              (by simpa using htoksne)
            constructor
            · rw [← h2]
              simpa using hsp.1
            · rw [← h2]
              rw [List.head?_reverse]
              rw [hsp.2]
              rw [List.getLast?_reverse]
              exact htokshead
        · rw [if_neg hcons] at h2
          cases h2
          exact ⟨htoksne, htokshead⟩
      cases h2 : (if gt.whitespace.consolidate = true
          then stripTrailingWs gt.tokens gt.whitespace toks
          else Except.ok toks) with
      | error e => rw [h2] at h; cases h
      | ok toks2 =>
        rw [h2] at h
        dsimp only at h
        obtain ⟨hne2, hhead2⟩ := hmain toks2 h2
        by_cases hlen : 2 ≤ (toks2 ++ [gt.whitespace.default]).length
        · rw [if_pos hlen] at h
          cases h
          refine ⟨?_, List.getLast?_concat _, hlen⟩
          rw [List.head?_append]
          rw [hhead2]
          rfl
        · rw [if_neg hlen] at h
          cases h

/-- Witness for claim C7's theorem at the concrete engine of claim C5. -/
theorem claim_C7_witness :
    ([" ", "aa", " "] : List String).head? = some eC5.whitespace.default
    ∧ ([" ", "aa", " "] : List String).getLast? = some eC5.whitespace.default
    ∧ 2 ≤ ([" ", "aa", " "] : List String).length :=
  claim_C7_whitespace_sentinels eC5 100 "aa".toList [" ", "aa", " "] (by decide)

/-! ### Claims C10 and C8 -/

/-- `isSubstr` decides contiguous-substring containment (Python's `in` on
strings). -/
theorem isSubstr_iff_infix (needle : List Char) :
    ∀ hay, isSubstr needle hay = true ↔ needle <:+: hay := by
  intro hay
  induction hay with
  | nil =>
    simp only [isSubstr, List.isEmpty_iff, List.infix_nil]
  | cons c t ih =>
    simp only [isSubstr, Bool.or_eq_true, ih, List.isPrefixOf_iff_prefix]
    rw [List.infix_cons_iff]

/-- Inversion of the engine constructor: a successfully constructed engine
stores exactly the settings it was given. -/
theorem mkGraphTransliterator_ok_fields (tk : List (String × List String))
    (rl : List TransliterationRule) (ws : WhitespaceRules)
    (om : Option (List OnMatchRule)) (ig ca : Bool) (e : GraphTransliterator)
    (h : mkGraphTransliterator tk rl ws om ig ca = .ok e) :
    e.rules = rl ∧ e.tokens = tk ∧ e.whitespace = ws ∧ e.ignore_errors = ig
    ∧ e.check_ambiguity = ca := by
  unfold mkGraphTransliterator at h
  cases hchk : (if ca = true then check_for_ambiguity tk rl else .ok ()) with
  | error err =>
    rw [hchk] at h
    cases h
  | ok u =>
    rw [hchk] at h
    cases u
    dsimp only at h
    cases hg : _graph_from rl with
    | error err => rw [hg] at h; cases h
    | ok g =>
      rw [hg] at h
      dsimp only at h
      cases h
      exact ⟨rfl, rfl, rfl, rfl, rfl⟩

/-- C10.  When `pruned_of` receives a single string rather than a list,
Python's `production not in productions` tests *substring* containment: a
rule survives iff its production does not occur contiguously inside the
string.  First conjunct: the embedded membership test agrees with
list-infix containment for all strings.  Second conjunct: for every engine
and string, every rule of a successfully rebuilt pruned engine is an
original rule whose production is not a substring, and conversely every
original rule with a non-substring production whose index survives the
filter is kept — stated as the rule list being exactly the filter.  Third
conjunct: pruning with the single string `"AB"` removes a rule producing
`"A"`, since `"A"` occurs inside `"AB"`. -/
theorem claim_C10_string_pruning_is_substring_matching :
    (∀ p s : String, pyNotIn p (.str s) = false ↔ p.toList <:+: s.toList)
    ∧ (∀ (gt : GraphTransliterator) (s : String) (e : GraphTransliterator),
        pruned_of gt (.str s) = .ok e →
          e.rules = gt.rules.filter (fun r => pyNotIn r.production (.str s))
          ∧ ∀ r ∈ e.rules, ¬ r.production.toList <:+: s.toList)
    ∧ pyNotIn "A" (.str "AB") = false := by
  refine ⟨?_, ?_, by decide⟩
  · intro p s
    rw [← isSubstr_iff_infix]
    simp [pyNotIn]
  · intro gt s e h
    unfold pruned_of at h
    have hf := mkGraphTransliterator_ok_fields _ _ _ _ _ _ _ h
    refine ⟨hf.1, ?_⟩
    intro r hr
    rw [hf.1] at hr
    have := (List.mem_filter.mp hr).2
    simp only [pyNotIn, Bool.not_eq_true'] at this
    rw [← isSubstr_iff_infix]
    intro hq
    rw [this] at hq
    cases hq

/-- Witness for claim C10's theorem: its second conjunct applied to the
engine above pruned of the single string `"AB"`.  The rule producing `"A"`
is removed (`"A"` occurs inside `"AB"`) while the rule producing `"X"`
survives, and no surviving production is a substring of `"AB"`. -/
theorem claim_C10_witness :
    (((pruned_of eC10 (.str "AB")).toOption.getD default).rules
        = eC10.rules.filter (fun r => pyNotIn r.production (.str "AB")))
    ∧ ∀ r ∈ ((pruned_of eC10 (.str "AB")).toOption.getD default).rules,
        ¬ r.production.toList <:+: "AB".toList :=
  claim_C10_string_pruning_is_substring_matching.2.1 eC10 "AB"
    ((pruned_of eC10 (.str "AB")).toOption.getD default) (by decide)

/-! ### Claim C8 -/

/-- C8 counterexample.  `pruned_of` does not merely filter the rule list: it
re-runs the whole constructor (core.py lines 760-767 call
`GraphTransliterator(...)` with the filtered rules and the original
`check_ambiguity` flag), so pruning can *raise* instead of returning an
engine.  The claim C8 engine constructs successfully with ambiguity
checking enabled, yet pruning the single production `Z` leaves the
equal-cost pair `X`, `Y` with an uncovered intersection and the rebuild
raises `AmbiguousRules` — no new engine is returned. -/
theorem claim_C8_counterexample :
    mkGraphTransliterator tmC8 [rC8a, rC8b, rC8c] wsStd none false true
      = .ok eC8
    ∧ eC8.check_ambiguity = true
    ∧ pruned_of eC8 (.list ["Z"]) = .error .ambiguousRules := by
  refine ⟨by decide, by decide, by decide⟩

/-- C8 (amended).  *When* `pruned_of` with a list of productions `P`
returns an engine, that engine's rule list is exactly the original list
filtered of every rule whose production is in `P`: no surviving rule's
production is in `P`, the survivors form a sublist of the original list
(so every relative order among them, in particular the relative cost
order, is preserved), and if the original list was sorted by
non-decreasing cost the pruned list still is.  The original engine is
untouched: `pruned_of` builds the new engine from the original's stored
initialization parameters (`gt.tokens`, `gt.whitespace`, ...) without
modifying them. -/
theorem claim_C8_pruned_rules_filtered_order_preserved
    (gt : GraphTransliterator) (P : List String) (e : GraphTransliterator)
    (h : pruned_of gt (.list P) = .ok e) :
    e.rules = gt.rules.filter (fun r => ! P.contains r.production)
    ∧ (∀ r ∈ e.rules, P.contains r.production = false)
    ∧ e.rules.Sublist gt.rules
    ∧ (gt.rules.Pairwise (fun r s => r.cost ≤ s.cost) →
        e.rules.Pairwise (fun r s => r.cost ≤ s.cost)) := by
  unfold pruned_of at h
  have hf := mkGraphTransliterator_ok_fields _ _ _ _ _ _ _ h
  have hr : e.rules = gt.rules.filter (fun r => ! P.contains r.production) := by
    rw [hf.1]
    rfl
  refine ⟨hr, ?_, ?_, ?_⟩
  · intro r hmem
    rw [hr] at hmem
    have := (List.mem_filter.mp hmem).2
    rwa [Bool.not_eq_true'] at this
  · rw [hr]
    exact List.filter_sublist _
  · intro hp
    rw [hr]
    exact hp.sublist (List.filter_sublist _)

/-- Witness for claim C8's theorem: pruning the claim C8 engine of the
absent production `Q` succeeds (the three rules re-pass the ambiguity
check), and the theorem's conclusions hold for the resulting engine. -/
theorem claim_C8_witness :
    (((pruned_of eC8 (.list ["Q"])).toOption.getD default).rules
        = eC8.rules.filter (fun r => ! ["Q"].contains r.production))
    ∧ (∀ r ∈ ((pruned_of eC8 (.list ["Q"])).toOption.getD default).rules,
        (["Q"] : List String).contains r.production = false)
    ∧ (((pruned_of eC8 (.list ["Q"])).toOption.getD default).rules).Sublist
        eC8.rules
    ∧ (eC8.rules.Pairwise (fun r s => r.cost ≤ s.cost) →
        (((pruned_of eC8 (.list ["Q"])).toOption.getD default).rules).Pairwise
          (fun r s => r.cost ≤ s.cost)) :=
  claim_C8_pruned_rules_filtered_order_preserved eC8 ["Q"]
    ((pruned_of eC8 (.list ["Q"])).toOption.getD default) (by decide)

/-! ### Claim C6 -/

/-- The claim C6 engines indeed carry the graph written out above. -/
theorem eC6lenient_graph : eC6lenient.graph = gC6 := by decide

/-- Running the matcher of the claim C6 engine at any in-range position: the
single rule `aa → A` (rule key 0) matches exactly when the token at the
position is `aa`, and no error or fuel exhaustion occurs once the fuel is at
least 2. -/
theorem matchAt_eC6 (toks : List String) (ti : Nat) (tok : String)
    (htok : toks.get? ti = some tok) :
    ∀ fl, 2 ≤ fl →
      match_at eC6lenient.graph eC6lenient.tokens toks ti fl =
        some (.ok (if tok = "aa" then some 0 else none)) := by
  intro fl hfl
  obtain ⟨f, rfl⟩ : ∃ f, fl = f + 2 := ⟨fl - 2, by omega⟩
  have hti : ti < toks.length := by
    by_contra hc
    rw [List.get?_eq_none.mpr (by omega)] at htok
    cases htok
  rw [eC6lenient_graph]
  unfold match_at
  have h1 : appendChildren gC6 toks 0 ti
      = .ok (if tok = "aa" then [(1, 0, ti)] else []) := by
    unfold appendChildren
    rw [show getNode? gC6 0 = some { type := "Start", ordered_children := some [("aa", [1])] } from rfl]
    dsimp only
    rw [htok]
    dsimp only
    by_cases htoka : tok = "aa"
    · subst htoka
      rw [if_pos rfl]
      rfl
    · rw [if_neg htoka]
      have hbe : (tok == "aa") = false := by
        simp [htoka]
      simp [List.lookup, hbe]
  rw [h1]
  dsimp only
  by_cases htoka : tok = "aa"
  · rw [if_pos htoka, if_pos htoka]
    have hti2 : (if ti < toks.length - 1 then ti + 1 else ti) < toks.length := by
      split <;> omega
    obtain ⟨tok2, htok2⟩ :
        ∃ t2, toks.get? (if ti < toks.length - 1 then ti + 1 else ti) = some t2 := by
      cases hx : toks.get? (if ti < toks.length - 1 then ti + 1 else ti) with
      | none =>
        rw [List.get?_eq_none] at hx
        omega
      | some t2 => exact ⟨t2, rfl⟩
    have h2 : appendChildren gC6 toks 1 (if ti < toks.length - 1 then ti + 1 else ti)
        = .ok [(2, 1, (if ti < toks.length - 1 then ti + 1 else ti))] := by
      unfold appendChildren
      rw [show getNode? gC6 1 = some { type := "token", token := some "aa", ordered_children := some [("__rules__", [2])] } from rfl]
      dsimp only
      rw [htok2]
      dsimp only
      by_cases ht2 : tok2 = "__rules__"
      · subst ht2
        rfl
      · have hbe : (tok2 == "__rules__") = false := by
          simp [ht2]
        simp [List.lookup, hbe]
    have hstep1 : matchStep gC6 eC6lenient.tokens toks (1, 0, ti)
        = .ok (.inr [(2, 1, (if ti < toks.length - 1 then ti + 1 else ti))]) := by
      unfold matchStep
      dsimp only
      rw [if_pos hti]
      rw [show getNode? gC6 1 = some { type := "token", token := some "aa", ordered_children := some [("__rules__", [2])] } from rfl]
      dsimp only
      rw [show getEdge? gC6 0 1 = some { token := some "aa", cost := some (_cost_of 1) } from rfl]
      dsimp only
      unfold advanceFrames
      dsimp only
      rw [h2]
      rfl
    have hstep2 : matchStep gC6 eC6lenient.tokens toks
        (2, 1, (if ti < toks.length - 1 then ti + 1 else ti)) = .ok (.inl 0) := by
      unfold matchStep
      dsimp only
      rw [if_pos hti2]
      rfl
    show matchSingleLoop gC6 eC6lenient.tokens toks (f + 1 + 1) [(1, 0, ti)]
        = some (.ok (some 0))
    rw [matchSingleLoop]
    rw [hstep1]
    dsimp only
    rw [List.append_nil]
    rw [matchSingleLoop]
    rw [hstep2]
  · rw [if_neg htoka, if_neg htoka]
    rfl

/-- With `ignore_errors` on, the scan loop always terminates successfully
given fuel exceeding the remaining input length, provided every sorted token
is non-empty and declared: an unmatched character is skipped rather than
raised, and every step consumes at least one character.  The result carries
at most one token per consumed character. -/
theorem tokenizeScan_lenient_ok (tm : List (String × List String))
    (ws : WhitespaceRules) (st : List String)
    (hne : ∀ t ∈ st, t.toList ≠ [])
    (hlk : ∀ t ∈ st, (List.lookup t tm).isSome = true) :
    ∀ fuel (rest : List Char) prevWs acc, rest.length < fuel →
      ∃ r, tokenizeScan tm ws st true fuel rest prevWs acc = some (.ok r)
        ∧ r.length ≤ acc.length + rest.length := by
  intro fuel
  induction fuel with
  | zero => intro rest prevWs acc h; omega
  | succ f ih =>
    intro rest prevWs acc h
    cases rest with
    | nil => exact ⟨acc, rfl, by simp⟩
    | cons c cs =>
      simp only [List.length_cons] at h
      simp only [tokenizeScan]
      cases hmt : tokMatch st (c :: cs) with
      | none =>
        dsimp only
        rw [if_pos trivial]
        obtain ⟨r, hr, hrlen⟩ := ih ((c :: cs).drop 1) prevWs acc
          (by simp only [List.drop_succ_cons, List.drop_zero]; omega)
        refine ⟨r, hr, ?_⟩
        simp only [List.drop_succ_cons, List.drop_zero] at hrlen
        simp only [List.length_cons]
        omega
      | some token =>
        have hmt' := hmt
        unfold tokMatch at hmt'
        have hmem : token ∈ st := List.mem_of_find?_eq_some hmt'
        have hpref0 := List.find?_some hmt'
        have hpref : token.toList.isPrefixOf (c :: cs) = true := by simpa using hpref0
        have hpos : 0 < token.toList.length :=
          List.length_pos.mpr (hne token hmem)
        have hlk' := hlk token hmem
        dsimp only
        cases hlkc : List.lookup token tm with
        | none => rw [hlkc] at hlk'; cases hlk'
        | some classes =>
          have hws : is_whitespace tm ws token = .ok (classes.contains ws.token_class) := by
            unfold is_whitespace
            rw [hlkc]
          rw [hws]
          have hdlen : ((c :: cs).drop token.toList.length).length < f := by
            rw [List.length_drop]
            simp only [List.length_cons]
            omega
          cases hb : classes.contains ws.token_class with
          | true =>
            dsimp only
            by_cases hcond : (prevWs = true ∧ ws.consolidate = true)
            · rw [if_pos hcond]
              obtain ⟨r, hr, hrlen⟩ := ih _ prevWs acc hdlen
              refine ⟨r, hr, ?_⟩
              rw [List.length_drop] at hrlen
              simp only [List.length_cons] at hrlen ⊢
              omega
            · rw [if_neg hcond]
              obtain ⟨r, hr, hrlen⟩ := ih _ true (acc ++ [token]) hdlen
              refine ⟨r, hr, ?_⟩
              rw [List.length_drop] at hrlen
              simp only [List.length_append, List.length_cons, List.length_nil] at hrlen ⊢
              omega
          | false =>
            dsimp only
            obtain ⟨r, hr, hrlen⟩ := ih _ false (acc ++ [token]) hdlen
            refine ⟨r, hr, ?_⟩
            rw [List.length_drop] at hrlen
            simp only [List.length_append, List.length_cons, List.length_nil] at hrlen ⊢
            omega

/-- With `ignore_errors` on, `tokenize` on the claim C6 engine succeeds for
every input, given fuel exceeding the input length, and yields at most one
token per input character plus the two whitespace sentinels. -/
theorem tokenize_eC6lenient_ok (input : List Char) (fuel : Nat)
    (h : input.length < fuel) :
    ∃ toks, tokenize eC6lenient fuel input = some (.ok toks)
      ∧ toks.length ≤ input.length + 2 := by
  have hone : ∀ t ∈ eC6lenient.tokenizer_tokens, t.toList ≠ [] := by
    intro t ht
    have hmem : t ∈ ["aa", "bbb", " "] := by
      have h2 : eC6lenient.tokenizer_tokens = pySort tokenizerLE ["aa", "bbb", " "] := rfl
      rw [h2] at ht
      exact (mem_pySort tokenizerLE t _).mp ht
    simp only [List.mem_cons, List.not_mem_nil, or_false] at hmem
    rcases hmem with rfl | rfl | rfl <;> decide
  have hlk : ∀ t ∈ eC6lenient.tokenizer_tokens,
      (List.lookup t eC6lenient.tokens).isSome = true := by
    intro t ht
    have hmem : t ∈ ["aa", "bbb", " "] := by
      have h2 : eC6lenient.tokenizer_tokens = pySort tokenizerLE ["aa", "bbb", " "] := rfl
      rw [h2] at ht
      exact (mem_pySort tokenizerLE t _).mp ht
    simp only [List.mem_cons, List.not_mem_nil, or_false] at hmem
    rcases hmem with rfl | rfl | rfl <;> decide
  obtain ⟨r, hscan, hrlen⟩ := tokenizeScan_lenient_ok eC6lenient.tokens
    eC6lenient.whitespace eC6lenient.tokenizer_tokens hone hlk fuel input true
    [eC6lenient.whitespace.default] h
  obtain ⟨ext, hext⟩ := tokenizeScan_prefix eC6lenient.tokens eC6lenient.whitespace
    eC6lenient.tokenizer_tokens true fuel input true [eC6lenient.whitespace.default] r hscan
  refine ⟨r ++ [eC6lenient.whitespace.default], ?_, ?_⟩
  · unfold tokenize
    rw [show eC6lenient.ignore_errors = true from rfl]
    rw [hscan]
    dsimp only
    rw [show eC6lenient.whitespace.consolidate = false from rfl]
    rw [if_neg (by decide)]
    dsimp only
    rw [if_pos ?hlen2]
    case hlen2 =>
      rw [hext]
      simp only [List.length_append, List.length_cons, List.length_nil]
      omega
  · simp only [List.length_append, List.length_cons, List.length_nil] at hrlen ⊢
    omega

/-- With `ignore_errors` on, the driving loop of `transliterate` on the
claim C6 engine always returns successfully, given fuel exceeding the number
of remaining token positions: every position either matches the rule
`aa → A` (advancing by the one matched token) or is skipped. -/
theorem translitLoop_eC6lenient_ok (toks : List String) :
    ∀ fuel token_i output, toks.length - token_i + 1 ≤ fuel →
      ∃ out, translitLoop eC6lenient toks fuel token_i output = some (.ok out) := by
  intro fuel
  induction fuel with
  | zero => intro ti out h; omega
  | succ f ih =>
    intro ti output h
    by_cases hlt : ti < toks.length - 1
    · have hti : ti < toks.length := by omega
      obtain ⟨tok, htok⟩ : ∃ tok, toks.get? ti = some tok := by
        cases hx : toks.get? ti with
        | none =>
          rw [List.get?_eq_none] at hx
          omega
        | some t => exact ⟨t, rfl⟩
      have hmt := matchAt_eC6 toks ti tok htok (f + 1) (by omega)
      simp only [translitLoop]
      rw [if_pos hlt, hmt]
      by_cases htoka : tok = "aa"
      · rw [if_pos htoka]
        dsimp only
        rw [show List.get? eC6lenient.rules 0 = some rC6 from rfl]
        dsimp only
        rw [show onmatchProduction eC6lenient toks ti = .ok "" from rfl]
        dsimp only
        exact ih (ti + rC6.tokens.length) (output ++ "" ++ rC6.production)
          (by rw [show rC6.tokens.length = 1 from rfl]; omega)
      · rw [if_neg htoka]
        dsimp only
        rw [show eC6lenient.ignore_errors = true from rfl]
        rw [if_pos rfl]
        exact ih (ti + 1) output (by omega)
    · refine ⟨output, ?_⟩
      simp only [translitLoop]
      rw [if_neg hlt]

/-- C6.  On the claim C6 engine (token `bbb` has no rule): with
`ignore_errors` off, `transliterate` raises `NoMatchingRule` when a token
position has no matching rule (input `aabbb`) and
`UnrecognizableInputToken` when a character matches no declared token
(input `aa!`); with `ignore_errors` on, the very same calls succeed with
output `A`, skipping exactly the offending position.  The fifth conjunct
shows there is no rollback: on `!aabbb aa` the leading bad character, the
ruleless token `bbb` and the whitespace positions are each skipped
individually and both `aa` occurrences still produce, giving `AA`.  The
last conjunct is the general guarantee: with `ignore_errors` on the engine
transliterates *every* input successfully (given fuel exceeding the input
length plus the two sentinels). -/
theorem claim_C6_ignore_errors_skips_offending_positions :
    transliterate eC6strict 100 "aabbb".toList = some (.error .noMatchingRule)
    ∧ transliterate eC6lenient 100 "aabbb".toList = some (.ok "A")
    ∧ transliterate eC6strict 100 "aa!".toList = some (.error .unrecognizableInputToken)
    ∧ transliterate eC6lenient 100 "aa!".toList = some (.ok "A")
    ∧ transliterate eC6lenient 100 "!aabbb aa".toList = some (.ok "AA")
    ∧ ∀ (input : List Char) (fuel : Nat), input.length + 2 ≤ fuel →
        ∃ output, transliterate eC6lenient fuel input = some (.ok output) := by
  refine ⟨by decide, by decide, by decide, by decide, by decide, ?_⟩
  intro input fuel hf
  obtain ⟨toks, htk, hlen⟩ := tokenize_eC6lenient_ok input fuel (by omega)
  unfold transliterate
  rw [htk]
  exact translitLoop_eC6lenient_ok toks fuel 1 "" (by omega)

/-- Witness for claim C6's theorem: its universal conjunct applied to the
concrete input `zzz` (all characters unrecognizable) with fuel 7. -/
theorem claim_C6_witness :
    ∃ output, transliterate eC6lenient 7 "zzz".toList = some (.ok output) :=
  claim_C6_ignore_errors_skips_offending_positions.2.2.2.2.2 "zzz".toList 7 (by decide)

/-! ### Claim C4, amended part -/

/-- Updating the data of one edge changes exactly that edge's stored data. -/
theorem lookup_map_update {α β : Type} [BEq α] [LawfulBEq α] [DecidableEq α]
    (k : α) (f : β → β) :
    ∀ l : List (α × β),
      List.lookup k (l.map (fun e => if e.1 = k then (e.1, f e.2) else e))
        = (List.lookup k l).map f := by
  intro l
  induction l with
  | nil => rfl
  | cons e es ih =>
    obtain ⟨a, b⟩ := e
    simp only [List.map_cons]
    by_cases he : a = k
    · subst he
      rw [if_pos rfl]
      simp [List.lookup]
    · rw [if_neg he]
      simp [List.lookup, beq_eq_false_iff_ne.mpr (Ne.symm he), ih]

/-- `getEdge?` after `updateEdge` on the same edge. -/
theorem getEdge?_updateEdge (g : DirectedGraph) (h t : Nat) (f : EdgeData → EdgeData) :
    getEdge? (updateEdge g h t f) h t = (getEdge? g h t).map f := by
  unfold getEdge? updateEdge
  exact lookup_map_update (h, t) f g.edge

/-- The running cost of an edge under repeated `updateEdgeCost` traversals:
with the current value `v ≤ 1` represented as a stored `"cost"` entry when
`v < 1` and a *missing* entry otherwise (read back as the default `1`),
folding the traversing rules' costs over the edge leaves the running value
at `min` of `v` and all those costs, in the same missing-when-not-below-one
representation.  All other edge fields are untouched. -/
theorem updateEdgeCost_foldl (h t : Nat) :
    ∀ (cs : List Rat) (g : DirectedGraph) (d : EdgeData) (v : Rat),
      getEdge? g h t = some { d with cost := if v < 1 then some v else none } →
      v ≤ 1 →
      getEdge? (cs.foldl (fun gg c => updateEdgeCost gg h t c) g) h t
        = some { d with cost := if cs.foldl min v < 1 then some (cs.foldl min v) else none } := by
  intro cs
  induction cs with
  | nil =>
    intro g d v hg hv
    simpa using hg
  | cons c cs ih =>
    intro g d v hg hv
    simp only [List.foldl_cons]
    have hgd1 : (if v < 1 then some v else (none : Option Rat)).getD 1 = v := by
      by_cases h1 : v < 1
      · rw [if_pos h1]
        rfl
      · rw [if_neg h1]
        exact (le_antisymm hv (not_lt.mp h1)).symm
    by_cases hc : c < v
    · have hc1 : c < 1 := lt_of_lt_of_le hc hv
      have hupd : getEdge? (updateEdge g h t (fun e => { e with cost := some c })) h t
          = some { d with cost := some c } := by
        rw [getEdge?_updateEdge, hg]
        rfl
      have hrec := ih (updateEdge g h t (fun e => { e with cost := some c })) d c
        (by rw [hupd, if_pos hc1]) (le_of_lt hc1)
      have hstep : updateEdgeCost g h t c
          = updateEdge g h t (fun e => { e with cost := some c }) := by
        unfold updateEdgeCost
        rw [hg]
        dsimp only
        rw [hgd1, if_pos hc]
      rw [show min v c = c from min_eq_right hc.le, hstep]
      exact hrec
    · have hrec := ih g d v hg hv
      have hstep : updateEdgeCost g h t c = g := by
        unfold updateEdgeCost
        rw [hg]
        dsimp only
        rw [hgd1, if_neg hc]
      rw [show min v c = v from min_eq_left (not_lt.mp hc), hstep]
      exact hrec

/-- C4 (amended).  The "uninitialized" state of an edge's cost is a missing
`"cost"` entry read back as the *default `1`* (`curr_edge.get("cost", 1)`),
not `+∞`; each traversal lowers the stored value to the traversing rule's
cost only when that cost is strictly below the current value.  First
conjunct: for every graph, edge and cost sequence, folding the traversals
over an edge starting without a cost entry leaves `min` of the costs when
that `min` is below `1`, and *no entry at all* otherwise (which is what
makes the counterexample's explicit cost `2` crash the second phase) — in
particular, for derived costs (always `< 1`) the edge does carry the
minimum of the traversing rules' costs.  Remaining conjuncts: in the graph
of the two derived-cost rules `a → A` and `a b → AB`, the shared prefix
edge into the token node of `a` carries exactly
`min(rC4a.cost, rC4b.cost)` — the cost of its cheapest descendant
(`rC4b`) — and the edge into the token node of `b` carries `rC4b.cost`. -/
theorem claim_C4_token_edge_cost_is_min_capped_below_one :
    (∀ (g : DirectedGraph) (h t : Nat) (d : EdgeData),
      getEdge? g h t = some d → d.cost = none →
      ∀ cs : List Rat,
        getEdge? (cs.foldl (fun gg c => updateEdgeCost gg h t c) g) h t
          = some { d with cost := if cs.foldl min 1 < 1 then some (cs.foldl min 1) else none })
    ∧ getEdge? gC4 0 1 = some { token := some "a", cost := some (min rC4a.cost rC4b.cost) }
    ∧ min rC4a.cost rC4b.cost = rC4b.cost
    ∧ min rC4a.cost rC4b.cost < 1
    ∧ getEdge? gC4 1 2 = some { token := some "b", cost := some rC4b.cost } := by
  refine ⟨?_, by decide, by decide, by decide, by decide⟩
  intro g h t d hg hnone cs
  have h1 : getEdge? g h t
      = some { d with cost := if (1 : Rat) < 1 then some 1 else none } := by
    rw [if_neg (lt_irrefl (1 : Rat))]
    obtain ⟨tk, co, cn⟩ := d
    dsimp only at hnone
    subst hnone
    exact hg
  exact updateEdgeCost_foldl h t cs g d 1 h1 le_rfl

/-- Witness for claim C4's theorem: its first conjunct applied to a
one-edge graph traversed by the two derived costs `1/2` then `1/3`; the
fold leaves the minimum `1/3` on the edge. -/
theorem claim_C4_witness :
    getEdge? ([_cost_of 1, _cost_of 2].foldl (fun gg c => updateEdgeCost gg 0 1 c)
        (addEdge { node := [], edge := [] } 0 1 { token := some "a" })) 0 1
      = some { token := some "a", cost := if [_cost_of 1, _cost_of 2].foldl min 1 < 1 then some ([_cost_of 1, _cost_of 2].foldl min 1) else none } :=
  claim_C4_token_edge_cost_is_min_capped_below_one.1
    (addEdge { node := [], edge := [] } 0 1 { token := some "a" }) 0 1
    { token := some "a" } (by decide) rfl [_cost_of 1, _cost_of 2]
